import Mathlib

/-!
# Verification of the Hub chunk-engine core

A shallow embedding of the chunked array storage engine:
`hub/core/chunk_engine/write.py`, `hub/core/chunk_engine/read.py`,
`hub/api/tensor.py` and the LRU cache tier exercised by
`hub/core/tests/test_storage_provider.py`.

Modelling conventions:
* bytes are `List Nat` (byte values; the engine never inspects them),
* a numpy array of a fixed dtype is characterized by its shape together
  with its row-major buffer bytes (`np.frombuffer(...).reshape(shape)` and
  `row_wise_to_bytes` are mutually inverse for matching lengths, so
  element-wise equality of same-dtype arrays is equality of shape and buffer),
* the storage provider is an association list from keys to blobs; the key
  namespace `K/meta.json`, `K/index_map.json`, `K/chunks/<id>` is injective,
  so it is represented by an inductive key type,
* `pickle.dumps`/`pickle.loads` is an injective invertible encoding, so meta
  and index-map blobs are stored as structured values,
* `str(uuid1())` chunk names are globally fresh identifiers; they are
  determinized as a counter of `Nat` names minted in order.
-/

namespace Hub

/-! # Definitions -/

/-- Raw bytes of a blob or chunk. -/
abbrev Bytes := List Nat

/-- The key namespace of §6: `K/meta.json`, `K/index_map.json`,
`K/chunks/<chunk_id>`, and any unrelated key.  The path scheme is injective,
which the inductive representation captures. -/
inductive SKey where
  | metaOf (tensor : String)
  | indexMapOf (tensor : String)
  | chunkOf (tensor : String) (name : Nat)
  | other (k : String)
deriving DecidableEq, Repr

/-- Per-tensor header written by `write_array` (`meta` dict in `write.py`).
The dtype is represented by its element size in bytes (`dtype` name strings
map one-to-one onto element layouts for the fixed platform). -/
structure TensorMeta where
  chunk_size : Nat
  dtype_itemsize : Nat
  length : Nat
  min_shape : List Nat
  max_shape : List Nat
deriving DecidableEq, Repr

/-- One index-map entry (`index_map_entry` dict built in `_write_bytes` and
  `_write_sample`). -/
structure IndexEntry where
  chunk_names : List Nat
  start_byte : Nat
  end_byte : Nat
  shape : List Nat
deriving DecidableEq, Repr

/-- A stored blob: raw chunk bytes, or a pickled meta / index-map record
(pickle is modelled as an injective invertible encoding). -/
inductive Blob where
  | bytes (b : Bytes)
  | metaBlob (m : TensorMeta)
  | indexBlob (im : List IndexEntry)
deriving DecidableEq, Repr

/-- A storage provider: an association list from keys to blobs
(`MemoryProvider`-style mapping; §4.1). -/
abbrev Storage := List (SKey × Blob)

/-- `provider[key]`, returning `none` for **NotFound**. -/
def storGet? (s : Storage) (k : SKey) : Option Blob :=
  match s with
  | [] => none
  | (k', v) :: rest => if k' = k then some v else storGet? rest k

/-- `key in provider`. -/
def storContains (s : Storage) (k : SKey) : Bool :=
  (storGet? s k).isSome

/-- `provider[key] = value`: full overwrite, inserting if absent. -/
def storPut (s : Storage) (k : SKey) (v : Blob) : Storage :=
  match s with
  | [] => [(k, v)]
  | (k', v') :: rest => if k' = k then (k, v) :: rest else (k', v') :: storPut rest k v

/-! ## Chunk splitter (C2)

`generate_chunks` is imported by `write.py` from `hub.core.chunk_engine` but
its defining module is not among the provided sources, so it is modelled
from the spec (§4.2, §4.6). -/

/-- Structural worker for `chunkify`; `fuel ≥ b.length` suffices, so the
`fuel = 0` fallback is unreachable in `chunkify` itself. -/
def chunkifyAux (cs : Nat) : Nat → Bytes → List Bytes
  | 0, b => if b = [] then [] else [b]
  | fuel + 1, b =>
    if b = [] then []
    else if cs = 0 then [b]
    else b.take cs :: chunkifyAux cs fuel (b.drop cs)

/-- Split `b` into consecutive pieces of length `cs`; only the last piece may
be shorter.  (`cs = 0` lies outside the splitter's domain — `chunk_size ≥ 1`
everywhere in the spec — and is totalized by returning the payload whole.) -/
def chunkify (cs : Nat) (b : Bytes) : List Bytes :=
  chunkifyAux cs b.length b

/-- Modelled from the spec: `generate_chunks` (§4.2).  Lazily splits a
sample's bytes; with `bytes_left_in_last_chunk > 0` the first yielded slice
has length at most `bllc` (it fills the pre-existing partial tail chunk) and
the remaining slices have length at most `chunk_size`.  It never yields an
empty slice and consumes the whole payload. -/
def generate_chunks (b : Bytes) (chunk_size : Nat) (bllc : Nat) : List Bytes :=
  if b = [] then []
  else if bllc = 0 then chunkify chunk_size b
  else b.take bllc :: chunkify chunk_size (b.drop bllc)

/-! ## Writer (`hub/core/chunk_engine/write.py`) -/

/-- Key helpers (`hub/util/keys.py` is not among the sources; the layout is
fixed by §6 and by `read.py`, which joins `key / "chunks" / chunk_name`). -/
def get_meta_key (key : String) : SKey := .metaOf key

/-- `K/index_map.json` (§6). -/
def get_index_map_key (key : String) : SKey := .indexMapOf key

/-- `K/chunks/<chunk_name>` (§6 and `read.py`). -/
def get_chunk_key (key : String) (name : Nat) : SKey := .chunkOf key name

/-- State threaded through the chunk loop of `_write_bytes`
(`extend_last_chunk`, `last_chunk_name`, `last_chunk`, `chunk_names`,
`start_byte`, `end_byte`, the storage, and the fresh-name counter that
determinizes `_random_chunk_name`). -/
structure WBState where
  extend_last : Bool
  last_chunk_name : Nat
  last_chunk : Bytes
  chunk_names : List Nat
  start_byte : Nat
  end_byte : Nat
  storage : Storage
  ctr : Nat
deriving Repr

/-- One iteration of the `for chunk in chunk_generator` loop of
`_write_bytes` (write.py:120-141).  `prev_end` is `index_map[-1]["end_byte"]`,
read only when `extend_last_chunk` holds (then `index_map` is non-empty). -/
def writeChunkStep (key : String) (chunk_size prev_end : Nat)
    (st : WBState) (piece : Bytes) : WBState :=
  if st.extend_last then
    let chunk := st.last_chunk ++ piece
    { extend_last := decide (chunk.length < chunk_size)
      last_chunk_name := st.last_chunk_name
      last_chunk := chunk
      chunk_names := st.chunk_names ++ [st.last_chunk_name]
      start_byte := prev_end
      end_byte := chunk.length
      storage := storPut st.storage (get_chunk_key key st.last_chunk_name) (.bytes chunk)
      ctr := st.ctr }
  else
    { extend_last := false
      last_chunk_name := st.ctr
      last_chunk := piece
      chunk_names := st.chunk_names ++ [st.ctr]
      start_byte := st.start_byte
      end_byte := piece.length
      storage := storPut st.storage (get_chunk_key key st.ctr) (.bytes piece)
      ctr := st.ctr + 1 }

/-- `_get_last_chunk` (write.py:154-176): name and bytes of the trailing
chunk of the last index-map entry; `(0, [])` stands for `("", b"")` when the
index map is empty.  `none` models the `KeyError`/`IndexError` the source
would raise on a dangling reference (unreachable in actual runs). -/
def _get_last_chunk (key : String) (index_map : List IndexEntry)
    (storage : Storage) : Option (Nat × Bytes) :=
  match index_map.getLast? with
  | none => some (0, [])
  | some e =>
    match e.chunk_names.getLast? with
    | none => none
    | some name =>
      match storGet? storage (get_chunk_key key name) with
      | some (.bytes b) => some (name, b)
      | _ => none

/-- `_write_bytes` (write.py:84-151).  Returns the entry fields
`(chunk_names, start_byte, end_byte)` together with the updated storage and
name counter.  `none` models the uncaught exceptions of the source: a
dangling last-chunk reference, or `b = b""` (then the loop never runs and
`end_byte` is an unbound name). -/
def _write_bytes (b : Bytes) (key : String) (chunk_size : Nat)
    (storage : Storage) (index_map : List IndexEntry) (ctr : Nat) :
    Option ((List Nat × Nat × Nat) × Storage × Nat) :=
  match _get_last_chunk key index_map storage with
  | none => none
  | some (last_chunk_name, last_chunk) =>
    let extend : Bool := decide (index_map ≠ []) && decide (last_chunk.length < chunk_size)
    let bllc : Nat := if extend then chunk_size - last_chunk.length else 0
    let pieces := generate_chunks b chunk_size bllc
    if pieces = [] then none
    else
      let prev_end := ((index_map.getLast?).map (·.end_byte)).getD 0
      let st0 : WBState :=
        { extend_last := extend, last_chunk_name := last_chunk_name
          last_chunk := last_chunk, chunk_names := [], start_byte := 0
          end_byte := 0, storage := storage, ctr := ctr }
      let stF := pieces.foldl (writeChunkStep key chunk_size prev_end) st0
      some ((stF.chunk_names, stF.start_byte, stF.end_byte), stF.storage, stF.ctr)

/-- `_write_sample` (write.py:76-81): serialize one sample (`to_bytes` is
the identity on the sample's canonical row-major buffer), write its bytes,
attach the per-sample `shape`, and append the entry to the index map. -/
def _write_sample (shape : List Nat) (b : Bytes) (key : String)
    (chunk_size : Nat) (storage : Storage) (index_map : List IndexEntry)
    (ctr : Nat) : Option (List IndexEntry × Storage × Nat) :=
  match _write_bytes b key chunk_size storage index_map ctr with
  | none => none
  | some ((names, s, e), storage', ctr') =>
    some (index_map ++ [⟨names, s, e, shape⟩], storage', ctr')

/-- The `for i in range(array.shape[0])` loop of `write_array`
(write.py:66-69), threading index map, storage and name counter. -/
def writeSamples (key : String) (chunk_size : Nat) (shape : List Nat) :
    List Bytes → Storage → List IndexEntry → Nat →
    Option (List IndexEntry × Storage × Nat)
  | [], storage, index_map, ctr => some (index_map, storage, ctr)
  | b :: rest, storage, index_map, ctr =>
    match _write_sample shape b key chunk_size storage index_map ctr with
    | none => none
    | some (index_map', storage', ctr') =>
      writeSamples key chunk_size shape rest storage' index_map' ctr'

/-- A batched numeric array (`normalize_and_batchify_shape` with
`batched=True` is, per spec §4.3 step 1, the identity on arrays of rank ≥ 1;
that helper's module is not among the sources).  Each sample is its
row-major buffer; all samples share `sampleShape = array.shape[1:]` and the
dtype of element size `itemsize`. -/
structure BatchArray where
  itemsize : Nat
  sampleShape : List Nat
  samples : List Bytes
deriving DecidableEq, Repr

/-- Well-formedness of a batched numeric array: a positive element size,
positive dimensions (§3: "shape: tuple of positive integers"), and each
sample buffer of exactly `prod(shape) * itemsize` bytes. -/
def BatchArray.WF (a : BatchArray) : Prop :=
  0 < a.itemsize ∧ (∀ d ∈ a.sampleShape, 0 < d) ∧
    ∀ b ∈ a.samples, b.length = a.sampleShape.prod * a.itemsize

/-- Errors `write_array` can raise: `NotImplementedError("Appending is not
supported yet.")` for an existing tensor (the **AlreadyExists** refusal),
or an internal uncaught exception. -/
inductive WriteError where
  | alreadyExists
  | internalError
deriving DecidableEq, Repr

/-- `write_array` (write.py:23-73) with `batched=True`.  An error carries
the storage at the moment the exception escapes (the source attempts no
cleanup). -/
def write_array (arr : BatchArray) (key : String) (storage : Storage)
    (chunk_size : Nat) : Except (WriteError × Storage) Storage :=
  if storContains storage (get_meta_key key) ||
      storContains storage (get_index_map_key key) then
    .error (.alreadyExists, storage)
  else
    let meta : TensorMeta :=
      { chunk_size := chunk_size, dtype_itemsize := arr.itemsize
        length := arr.samples.length, min_shape := arr.sampleShape
        max_shape := arr.sampleShape }
    match writeSamples key chunk_size arr.sampleShape arr.samples storage [] 0 with
    | none => .error (.internalError, storage)
    | some (index_map, storage', _) =>
      .ok (storPut (storPut storage' (get_meta_key key) (.metaBlob meta))
        (get_index_map_key key) (.indexBlob index_map))

/-! ## Reader (`hub/core/chunk_engine/read.py`) -/

/-- Tail of `join_chunks` over the second and later chunks: intermediate
chunks are appended whole, the last contributes `[..end_byte]`. -/
def joinTail (chunks : List Bytes) (end_byte : Nat) : Bytes :=
  match chunks with
  | [] => []
  | [c] => c.take end_byte
  | c :: rest => c ++ joinTail rest end_byte

/-- Modelled from the spec: `join_chunks` (`.chunker`, imported by `read.py`
but not among the sources; §4.4 step 2).  From the first chunk take
`[start_byte..]`, intermediate chunks whole, from the last `[..end_byte]`;
with a single chunk the range is `[start_byte..end_byte]`. -/
def join_chunks (chunks : List Bytes) (start_byte end_byte : Nat) : Bytes :=
  match chunks with
  | [] => []
  | [c] => (c.drop start_byte).take (end_byte - start_byte)
  | c :: rest => c.drop start_byte ++ joinTail rest end_byte

/-- `read_tensor_meta` (read.py:14-15); `none` models `KeyError` /
a malformed pickle. -/
def read_tensor_meta (key : String) (storage : Storage) : Option TensorMeta :=
  match storGet? storage (get_meta_key key) with
  | some (.metaBlob m) => some m
  | _ => none

/-- `pickle.loads(storage[get_index_map_key(key)])` (read.py:43). -/
def read_index_map (key : String) (storage : Storage) : Option (List IndexEntry) :=
  match storGet? storage (get_index_map_key key) with
  | some (.indexBlob im) => some im
  | _ => none

/-- The chunk-fetch loop of `_get_sample` (read.py:87-91). -/
def fetchChunks (key : String) (storage : Storage) : List Nat → Option (List Bytes)
  | [] => some []
  | name :: rest =>
    match storGet? storage (get_chunk_key key name) with
    | some (.bytes b) =>
      match fetchChunks key storage rest with
      | some l => some (b :: l)
      | none => none
    | _ => none

/-- `_get_sample` (read.py:86-100) minus the placement into `samples`:
fetch the entry's chunks, join the byte ranges, and decode.  The decoded
`np.frombuffer(...).reshape(shape)` value is represented by
`(shape, buffer bytes)`. -/
def _get_sample (key : String) (storage : Storage) (e : IndexEntry) :
    Option (List Nat × Bytes) :=
  match fetchChunks key storage e.chunk_names with
  | some chunks => some (e.shape, join_chunks chunks e.start_byte e.end_byte)
  | none => none

/-- `read_array` with `multi_threaded=False` over the full sample range
(read.py:22-64): load meta and index map, decode every sample in slice
order.  The trailing `np.array(samples)` stack is the returned list. -/
def read_array_single (key : String) (storage : Storage) :
    Option (List (List Nat × Bytes)) :=
  match read_tensor_meta key storage with
  | none => none
  | some _ =>
    match read_index_map key storage with
    | none => none
    | some index_map => index_map.mapM (_get_sample key storage)

/-- Python's `list.insert(i, x)`: insert before position `i`, clamping to
the end when `i` exceeds the current length. -/
def pyInsert (l : List α) (i : Nat) (x : α) : List α :=
  l.take i ++ x :: l.drop i

/-- The shared-list placement of `multi_threaded_get_samples`
(read.py:67-100): each worker `i` finishes by `samples.insert(i, result_i)`;
`order` is the order in which the workers' inserts execute (each insert is
atomic under the interpreter lock; `with ThreadPoolExecutor` joins all
workers before returning). -/
def insertPlacement (results : List (List Nat × Bytes)) (order : List Nat) :
    List (List Nat × Bytes) :=
  order.foldl
    (fun acc i =>
      match results[i]? with
      | some x => pyInsert acc i x
      | none => acc)
    []

/-- `read_array` with `multi_threaded=True` over the full sample range,
under the worker-completion order `order`. -/
def read_array_multi (key : String) (storage : Storage) (order : List Nat) :
    Option (List (List Nat × Bytes)) :=
  match read_tensor_meta key storage with
  | none => none
  | some _ =>
    match read_index_map key storage with
    | none => none
    | some index_map =>
      match index_map.mapM (_get_sample key storage) with
      | none => none
      | some results => some (insertPlacement results order)

/-! ## Tensor view (`hub/api/tensor.py`) -/

/-- A Python `slice(start, stop, step)` value; `fullSlice` is `slice(None)`. -/
structure PySlice where
  start : Option Int
  stop : Option Int
  step : Option Int
deriving DecidableEq, Repr

/-- `slice(None)`. -/
def fullSlice : PySlice := ⟨none, none, none⟩

/-- Modelled from the spec: `merge_slices` (`hub/util/slice.py`, not among
the sources; §6 "a derived view whose slice composes with the parent's").
Composing with the full slice on either side is the identity; otherwise the
derived bounds are re-based inside the parent window. -/
def merge_slices (existing new : PySlice) : PySlice :=
  if existing = fullSlice then new
  else if new = fullSlice then existing
  else
    let estart := existing.start.getD 0
    let estep := existing.step.getD 1
    ⟨some (estart + (new.start.getD 0) * estep),
      (new.stop.map (fun ns => estart + ns * estep)).orElse (fun _ => existing.stop),
      some (estep * (new.step.getD 1))⟩

/-- A `Tensor` view handle: `(key, slice)`; the provider is passed to each
operation.  `Tensor.__init__` additionally runs `load_meta`, which the
operations below replay. -/
structure TensorView where
  key : String
  tslice : PySlice
deriving DecidableEq, Repr

/-- A subscript: `Union[int, slice]`. -/
inductive TIndex where
  | int (i : Int)
  | slc (s : PySlice)
deriving DecidableEq, Repr

/-- Errors surfaced by the tensor view layer. -/
inductive TensorError where
  | notFound
  | unsupported
  | alreadyExists
  | internal
deriving DecidableEq, Repr

/-- `DEFAULT_CHUNK_SIZE` (`hub/constants.py`): 16 MB. -/
def DEFAULT_CHUNK_SIZE : Nat := 16 * 1000 * 1000

/-- `Tensor.__getitem__` (tensor.py:44-50): an integer `i` becomes
`slice(i, i + 1)`, the slice is merged with the parent's, and the derived
`Tensor(...)` constructor runs `load_meta`, raising `KeyError`
(**NotFound**) when the tensor's meta is absent. -/
def tensor_getitem (t : TensorView) (storage : Storage) (item : TIndex) :
    Except TensorError TensorView :=
  let s : PySlice :=
    match item with
    | .int i => ⟨some i, some (i + 1), none⟩
    | .slc s => s
  let merged := merge_slices t.tslice s
  match read_tensor_meta t.key storage with
  | none => .error .notFound
  | some _ => .ok ⟨t.key, merged⟩

/-- `Tensor.__setitem__` (tensor.py:52-65): derive `sliced_self = self[item]`,
refuse with `NotImplementedError` (**Unsupported**) unless its slice is
`slice(None)`, otherwise `write_array(value, key, storage, batched=True)`
with the default chunk size, then `load_meta`. -/
def tensor_setitem (t : TensorView) (item : TIndex) (value : BatchArray)
    (storage : Storage) : Except TensorError Storage :=
  match tensor_getitem t storage item with
  | .error e => .error e
  | .ok sliced =>
    if sliced.tslice ≠ fullSlice then .error .unsupported
    else
      match write_array value t.key storage DEFAULT_CHUNK_SIZE with
      | .error (.alreadyExists, _) => .error .alreadyExists
      | .error (.internalError, _) => .error .internal
      | .ok storage' =>
        match read_tensor_meta t.key storage' with
        | none => .error .notFound
        | some _ => .ok storage'

/-! ## LRU cache tier (§4.5)

The `LRUCache` provider class is referenced by
`hub/core/tests/test_storage_provider.py` (`lru.lru_sizes`, `lru.dirty_keys`,
`lru.cache_used`, `lru.cache_storage`, `lru.next_storage`) but its defining
module is not among the sources, so the tier is modelled from the spec. -/

/-- First-occurrence lookup in a string-keyed association list. -/
def alistGet? {α : Type} : List (String × α) → String → Option α
  | [], _ => none
  | (k', v) :: rest, k => if k' = k then some v else alistGet? rest k

/-- Overwrite-or-append in a string-keyed association list. -/
def alistPut {α : Type} : List (String × α) → String → α → List (String × α)
  | [], k, v => [(k, v)]
  | (k', v') :: rest, k, v =>
    if k' = k then (k, v) :: rest else (k', v') :: alistPut rest k v

/-- Remove the first entry with the given key. -/
def alistRemove {α : Type} : List (String × α) → String → List (String × α)
  | [], _ => []
  | (k', v) :: rest, k => if k' = k then rest else (k', v) :: alistRemove rest k

/-- Total cached bytes accounted by `lru_sizes`. -/
def sizesSum (l : List (String × Nat)) : Nat := (l.map Prod.snd).sum

/-- Modelled from the spec: the LRU cache tier state (§4.5).  `lru_sizes` is
ordered most-recently-used first; `cache_used` is maintained incrementally
by the operations; `dirty_keys` are the keys not yet written back to
`next_storage`. -/
structure LRUCache where
  lru_sizes : List (String × Nat)
  dirty_keys : List String
  cache_used : Nat
  cache_size : Nat
  cache_storage : List (String × Bytes)
  next_storage : List (String × Bytes)
deriving Repr

/-- Modelled from the spec: evict the least-recently-used key (§4.5
"Eviction policy"): if it is dirty, write its bytes to `next`; remove it
from the cache, the LRU order, the dirty set and the accounting. -/
def popLRU (st : LRUCache) : LRUCache :=
  match st.lru_sizes.getLast? with
  | none => st
  | some (k, sz) =>
    { st with
      lru_sizes := st.lru_sizes.dropLast
      dirty_keys := st.dirty_keys.erase k
      cache_used := st.cache_used - sz
      cache_storage := alistRemove st.cache_storage k
      next_storage :=
        if k ∈ st.dirty_keys then
          alistPut st.next_storage k ((alistGet? st.cache_storage k).getD [])
        else st.next_storage }

/-- Structural worker for the eviction loop; fuel `≥ lru_sizes.length`
suffices. -/
def evictAux : Nat → LRUCache → LRUCache
  | 0, st => st
  | fuel + 1, st =>
    if st.cache_used ≤ st.cache_size ∨ st.lru_sizes.length ≤ 1 then st
    else evictAux fuel (popLRU st)

/-- Modelled from the spec: evict while over budget (§4.5).  The loop never
evicts the most-recently-used entry, realizing the contract that a single
oversized entry is stored and may exceed the budget by itself. -/
def evictLoop (st : LRUCache) : LRUCache :=
  evictAux st.lru_sizes.length st

/-- Modelled from the spec: `put(k, v)` (§4.5): insert/replace in the cache,
update `cache_used` by the delta, mark MRU and dirty, then evict until the
budget holds. -/
def lruPut (st : LRUCache) (k : String) (v : Bytes) : LRUCache :=
  let oldSize := (alistGet? st.lru_sizes k).getD 0
  evictLoop
    { st with
      lru_sizes := (k, v.length) :: alistRemove st.lru_sizes k
      cache_used := st.cache_used - oldSize + v.length
      cache_storage := alistPut st.cache_storage k v
      dirty_keys := if k ∈ st.dirty_keys then st.dirty_keys else k :: st.dirty_keys }

/-- Modelled from the spec: `get(k)` (§4.5): on a hit read from the cache
and mark MRU; on a miss read from `next` and, on success, insert clean into
the cache (evicting as for `put`); `none` is **NotFound** in both tiers. -/
def lruGet (st : LRUCache) (k : String) : Option (Bytes × LRUCache) :=
  match alistGet? st.lru_sizes k with
  | some sz =>
    match alistGet? st.cache_storage k with
    | some v => some (v, { st with lru_sizes := (k, sz) :: alistRemove st.lru_sizes k })
    | none => none
  | none =>
    match alistGet? st.next_storage k with
    | none => none
    | some v =>
      some (v, evictLoop
        { st with
          lru_sizes := (k, v.length) :: st.lru_sizes
          cache_used := st.cache_used + v.length
          cache_storage := alistPut st.cache_storage k v })

/-- Modelled from the spec: `delete(k)` (§4.5): drop from the cache side if
present, drop from `next` if present; **NotFound** (`none`) only when absent
from both. -/
def lruDelete (st : LRUCache) (k : String) : Option LRUCache :=
  if (alistGet? st.lru_sizes k).isNone && (alistGet? st.next_storage k).isNone then
    none
  else
    some
      { st with
        lru_sizes := alistRemove st.lru_sizes k
        dirty_keys := st.dirty_keys.erase k
        cache_used := st.cache_used - (alistGet? st.lru_sizes k).getD 0
        cache_storage := alistRemove st.cache_storage k
        next_storage := alistRemove st.next_storage k }

/-- Modelled from the spec: `flush()` (§4.5): write every dirty key's cached
bytes to `next`, then clear the dirty set (the cache itself is kept). -/
def lruFlush (st : LRUCache) : LRUCache :=
  { st with
    next_storage :=
      st.dirty_keys.foldl
        (fun ns k => alistPut ns k ((alistGet? st.cache_storage k).getD [])) st.next_storage
    dirty_keys := [] }

/-- The budget invariant of §4.5: the accounting field agrees with the sum
of `lru_sizes`, and the tier is within budget except possibly for a single
stored oversized entry. -/
def LRUInv (st : LRUCache) : Prop :=
  st.cache_used = sizesSum st.lru_sizes ∧
    (st.cache_used ≤ st.cache_size ∨ st.lru_sizes.length = 1)

/-! ## Write-path invariant: auxiliary definitions -/

/-- The chunk contents an index entry refers to, read from the abstract
chunk list `cl` (chunk name `j` holds `cl[j]`). -/
def entryChunks (cl : List Bytes) (names : List Nat) : List Bytes :=
  names.map (fun j => (cl[j]?).getD [])

/-- The byte range an index entry denotes, read from the abstract chunk
list: this is what `_get_sample` reconstructs once the storage holds the
chunks of `cl`. -/
def readEntryFrom (cl : List Bytes) (e : IndexEntry) : Bytes :=
  join_chunks (entryChunks cl e.chunk_names) e.start_byte e.end_byte

/-- Length of the chunk blob stored under a chunk name (0 when absent). -/
def chunkLen (storage : Storage) (key : String) (name : Nat) : Nat :=
  match storGet? storage (get_chunk_key key name) with
  | some (.bytes b) => b.length
  | _ => 0

/-- The byte count covered by the second and later chunks of an index
entry: intermediate chunks count whole, the last contributes `end_byte`. -/
def coveredTail (storage : Storage) (key : String) : List Nat → Nat → Nat
  | [], _ => 0
  | [_], e => e
  | m :: rest, e => chunkLen storage key m + coveredTail storage key rest e

/-- The number of bytes an index entry covers, as claim C3 counts them:
`end_byte - start_byte` for a single chunk, otherwise
`(len(first) - start_byte) + full intermediate chunks + end_byte`. -/
def coveredBytes (storage : Storage) (key : String) (ent : IndexEntry) : Nat :=
  match ent.chunk_names with
  | [] => 0
  | [_] => ent.end_byte - ent.start_byte
  | m :: rest =>
    (chunkLen storage key m - ent.start_byte) + coveredTail storage key rest ent.end_byte

/-- Invariant of the sample loop of `write_array`.  After the samples `p`
have been written to a fresh tensor `key` starting from storage `S₀`, the
loop state `(IM, S, ctr)` is abstracted by the chunk list `cl` (chunk name
`j` holds `cl[j]`): the chunks partition the concatenated sample bytes, all
but the tail chunk are exactly `chunk_size` long, each index entry addresses
a consecutive run of chunk names whose stored bytes reproduce its sample,
and consecutive entries either share a boundary chunk or start a fresh
one. -/
structure WInv (key : String) (cs : Nat) (S₀ : Storage) (shape : List Nat)
    (p : List Bytes) (IM : List IndexEntry) (S : Storage) (ctr : Nat)
    (cl : List Bytes) : Prop where
  ctr_eq : ctr = cl.length
  flatten_eq : cl.flatten = p.flatten
  chunk_pos : ∀ c ∈ cl, 0 < c.length ∧ c.length ≤ cs
  chunk_full : ∀ c ∈ cl.dropLast, c.length = cs
  store_chunk : ∀ (j : Nat) (b : Bytes), cl[j]? = some b →
      storGet? S (get_chunk_key key j) = some (.bytes b)
  frame_other : ∀ k', (∀ j, k' ≠ get_chunk_key key j) →
      storGet? S k' = storGet? S₀ k'
  frame_hi : ∀ j, cl.length ≤ j →
      storGet? S (get_chunk_key key j) = storGet? S₀ (get_chunk_key key j)
  im_len : IM.length = p.length
  entry_names : ∀ e ∈ IM, ∃ a k, 0 < k ∧ a + k ≤ ctr ∧
      e.chunk_names = List.range' a k
  entry_shape : ∀ e ∈ IM, e.shape = shape
  entry_end : ∀ e ∈ IM, ∀ (m : Nat) (b : Bytes), e.chunk_names.getLast? = some m →
      cl[m]? = some b → e.end_byte ≤ b.length
  last_entry : ∀ e, IM.getLast? = some e →
      e.chunk_names.getLast? = some (cl.length - 1) ∧
      ∀ b, cl.getLast? = some b → e.end_byte = b.length
  reads_cl : ∀ (t : Nat) (e : IndexEntry) (bt : Bytes), IM[t]? = some e →
      p[t]? = some bt → readEntryFrom cl e = bt
  boundary : ∀ (t : Nat) (e e' : IndexEntry), IM[t]? = some e → IM[t + 1]? = some e' →
      (e'.start_byte = e.end_byte ∧ e'.chunk_names.head? = e.chunk_names.getLast?)
      ∨ (e'.start_byte = 0 ∧ ∀ (u : Nat) (eu : IndexEntry) (n : Nat), u ≤ t →
          IM[u]? = some eu → e'.chunk_names.head? = some n → n ∉ eu.chunk_names)

/-- The meta record `write_array` builds for a batched array. -/
def metaFor (arr : BatchArray) (chunk_size : Nat) : TensorMeta :=
  { chunk_size := chunk_size, dtype_itemsize := arr.itemsize
    length := arr.samples.length, min_shape := arr.sampleShape
    max_shape := arr.sampleShape }

/-! # Theorems -/

theorem storGet?_put_same (s : Storage) (k : SKey) (v : Blob) :
    storGet? (storPut s k v) k = some v := by
  induction s with
  | nil => simp [storPut, storGet?]
  | cons hd tl ih =>
    obtain ⟨k', v'⟩ := hd
    by_cases h : k' = k <;> simp [storPut, storGet?, h, ih]

theorem storGet?_put_other (s : Storage) (k k' : SKey) (v : Blob) (h : k' ≠ k) :
    storGet? (storPut s k v) k' = storGet? s k' := by
  induction s with
  | nil => simp [storPut, storGet?, Ne.symm h]
  | cons hd tl ih =>
    obtain ⟨k₀, v₀⟩ := hd
    by_cases h₀ : k₀ = k
    · subst h₀
      simp [storPut, storGet?, Ne.symm h]
    · simp only [storPut, if_neg h₀]
      by_cases h₁ : k₀ = k' <;> simp [storGet?, h₁, ih]

theorem chunkifyAux_fuel (cs : Nat) : ∀ (f₁ f₂ : Nat) (b : Bytes),
    b.length ≤ f₁ → b.length ≤ f₂ →
    chunkifyAux cs f₁ b = chunkifyAux cs f₂ b := by
  intro f₁
  induction f₁ with
  | zero =>
    intro f₂ b hb₁ _
    have hbnil : b = [] := by
      cases b with
      | nil => rfl
      | cons x xs => simp at hb₁
    subst hbnil
    cases f₂ <;> rfl
  | succ n ih =>
    intro f₂ b hb₁ hb₂
    by_cases hbnil : b = []
    · subst hbnil
      cases f₂ <;> rfl
    · have hlen : b.length ≠ 0 := by simpa [List.length_eq_zero] using hbnil
      cases f₂ with
      | zero => omega
      | succ m =>
        by_cases hcs : cs = 0
        · simp [chunkifyAux, hbnil, hcs]
        · have hdrop : (b.drop cs).length ≤ n := by
            simp only [List.length_drop]; omega
          have hdrop' : (b.drop cs).length ≤ m := by
            simp only [List.length_drop]; omega
          simp only [chunkifyAux, hbnil, hcs, if_false, if_neg hbnil]
          rw [ih _ _ hdrop hdrop']

/-- The natural recursion of the splitter. -/
theorem chunkify_eq (cs : Nat) (b : Bytes) :
    chunkify cs b =
      if b = [] then []
      else if cs = 0 then [b]
      else b.take cs :: chunkify cs (b.drop cs) := by
  by_cases hbnil : b = []
  · subst hbnil; rfl
  · by_cases hcs : cs = 0
    · subst hcs
      cases b with
      | nil => exact absurd rfl hbnil
      | cons x xs => simp [chunkify, chunkifyAux]
    · cases b with
      | nil => exact absurd rfl hbnil
      | cons x xs =>
        simp only [chunkify, List.length_cons, chunkifyAux, hcs, if_false,
          if_neg hbnil]
        rw [chunkifyAux_fuel]
        · simp only [List.length_drop, List.length_cons]; omega
        · exact le_rfl

/-! ## Concrete scenario and error-path claims -/

/-- **C5**: with `chunk_size = 4`, writing a batch of two 3-byte samples
(a 2×3 uint8 array, batched) to a fresh key produces exactly 2 chunks of
sizes 4 and 2; the first index entry is `start_byte=0, end_byte=3` with the
single chunk `c1`, the second is `start_byte=3, end_byte=2` with
`chunk_names = [c1, c2]` where `c1` is the first entry's chunk; reading both
samples back returns the original bytes. -/
theorem write_two_samples_scenario :
    ∃ S', write_array ⟨1, [3], [[97,98,99],[100,101,102]]⟩ "tensor" [] 4 = .ok S'
      ∧ storGet? S' (get_chunk_key "tensor" 0) = some (.bytes [97,98,99,100])
      ∧ storGet? S' (get_chunk_key "tensor" 1) = some (.bytes [101,102])
      ∧ (∀ j, 2 ≤ j → storGet? S' (get_chunk_key "tensor" j) = none)
      ∧ read_index_map "tensor" S' =
          some [⟨[0], 0, 3, [3]⟩, ⟨[0, 1], 3, 2, [3]⟩]
      ∧ read_array_single "tensor" S' =
          some [([3], [97,98,99]), ([3], [100,101,102])] := by
  refine ⟨[(.chunkOf "tensor" 0, .bytes [97,98,99,100]),
    (.chunkOf "tensor" 1, .bytes [101,102]),
    (.metaOf "tensor", .metaBlob ⟨4, 1, 2, [3], [3]⟩),
    (.indexMapOf "tensor", .indexBlob [⟨[0], 0, 3, [3]⟩, ⟨[0, 1], 3, 2, [3]⟩])],
    rfl, by decide, by decide, ?_, by decide, by decide⟩
  intro j hj
  simp only [storGet?, get_chunk_key]
  rw [if_neg (by simp; omega), if_neg (by simp; omega),
    if_neg (by simp), if_neg (by simp)]

/-- **C6**: `write_array` rejects with the AlreadyExists-style error exactly
when the meta key or the index-map key already exists, and the rejection
happens before any write, so the storage the error escapes with is the
unchanged input storage. -/
theorem write_array_already_exists_iff (arr : BatchArray) (key : String)
    (storage : Storage) (chunk_size : Nat) :
    (write_array arr key storage chunk_size = .error (.alreadyExists, storage)
        ↔ (storContains storage (get_meta_key key) = true ∨
           storContains storage (get_index_map_key key) = true))
    ∧ (∀ e S', write_array arr key storage chunk_size = .error (e, S') →
        e = WriteError.alreadyExists → S' = storage) := by
  by_cases h : storContains storage (get_meta_key key) = true ∨
      storContains storage (get_index_map_key key) = true
  · constructor
    · constructor
      · intro _; exact h
      · intro _
        simp only [write_array]
        rw [if_pos (by simpa [Bool.or_eq_true] using h)]
    · intro e S' he _
      simp only [write_array] at he
      rw [if_pos (by simpa [Bool.or_eq_true] using h)] at he
      injection he with hpair
      injection hpair with h1 h2
      exact h2.symm
  · have hcond : (storContains storage (get_meta_key key) ||
        storContains storage (get_index_map_key key)) = false := by
      simpa [Bool.or_eq_true] using h
    have hne : ∀ e S', write_array arr key storage chunk_size = .error (e, S') →
        e ≠ WriteError.alreadyExists := by
      intro e S' he
      simp only [write_array, hcond, Bool.false_eq_true, if_false] at he
      cases hw : writeSamples key chunk_size arr.sampleShape arr.samples storage [] 0 with
      | none =>
        rw [hw] at he
        cases Except.error.inj he
        exact fun hcontra => WriteError.noConfusion hcontra
      | some res =>
        obtain ⟨im, st', c⟩ := res
        rw [hw] at he
        exact absurd he (by simp)
    constructor
    · constructor
      · intro he
        exact absurd rfl (hne _ _ he)
      · intro hc; exact absurd hc h
    · intro e S' he hae
      exact absurd hae (hne _ _ he)

/-- **C7** (code bug): the parallel read path of `read_array` places each
worker's decoded sample with `samples.insert(index, ...)` into an initially
empty shared list, which is *not* index-addressed placement: with three
samples and workers completing in the order 2, 1, 0 the output is
`[s0, s2, s1]`, differing from the single-threaded result, so the parallel
result is not independent of worker completion order. -/
theorem parallel_read_misplaces_samples :
    ∃ S', write_array ⟨1, [1], [[1],[2],[3]]⟩ "tensor" [] 2 = .ok S'
      ∧ read_array_single "tensor" S' = some [([1],[1]),([1],[2]),([1],[3])]
      ∧ List.Perm [2,1,0] [0,1,2]
      ∧ read_array_multi "tensor" S' [2,1,0] = some [([1],[1]),([1],[3]),([1],[2])]
      ∧ read_array_multi "tensor" S' [2,1,0] ≠ read_array_single "tensor" S' := by
  refine ⟨[(.chunkOf "tensor" 0, .bytes [1,2]),
    (.chunkOf "tensor" 1, .bytes [3]),
    (.metaOf "tensor", .metaBlob ⟨2, 1, 3, [1], [1]⟩),
    (.indexMapOf "tensor", .indexBlob
      [⟨[0], 0, 1, [1]⟩, ⟨[0], 1, 2, [1]⟩, ⟨[1], 0, 1, [1]⟩])],
    rfl, by decide, by decide, by decide, by decide⟩

/-- **C9** (code bug): `Tensor.__setitem__` first evaluates `self[item]`,
whose `Tensor` constructor runs `load_meta`; for a fresh target tensor that
raises `KeyError` (**NotFound**) before the assignment check, and for an
existing tensor the final `write_array` refuses with **AlreadyExists** — so
the assignment that the spec supports (unsliced view, fresh tensor) is
unreachable, and `__setitem__` never succeeds at all. -/
theorem setitem_success_unreachable :
    (tensor_setitem ⟨"tensor", fullSlice⟩ (.slc fullSlice)
        ⟨1, [3], [[97,98,99],[100,101,102]]⟩ [] = .error .notFound)
    ∧ ∀ (t : TensorView) (item : TIndex) (v : BatchArray) (S : Storage),
        ∃ e, tensor_setitem t item v S = .error e := by
  refine ⟨rfl, ?_⟩
  intro t item v S
  simp only [tensor_setitem, tensor_getitem]
  cases hm : read_tensor_meta t.key S with
  | none => exact ⟨.notFound, rfl⟩
  | some m =>
    simp only
    by_cases hs : merge_slices t.tslice
        (match item with
          | .int i => ⟨some i, some (i + 1), none⟩
          | .slc s => s) = fullSlice
    · rw [if_neg (by simpa using hs)]
      have hcontains : storContains S (get_meta_key t.key) = true := by
        simp only [read_tensor_meta] at hm
        cases hg : storGet? S (get_meta_key t.key) with
        | none => rw [hg] at hm; exact absurd hm (by simp)
        | some blob => simp [storContains, hg]
      simp only [write_array, hcontains, Bool.true_or, if_true]
      exact ⟨.alreadyExists, rfl⟩
    · rw [if_pos (by simpa using hs)]
      exact ⟨.unsupported, rfl⟩

/-- **C10**: for every tensor view over an existing tensor, an integer
subscript is converted to `slice(i, i + 1)` and composed with the parent's
slice before the assignment check, so `t[i] = v` always fails with the
unsupported-assignment error — the assignment path never observes an
unsliced view for an integer index. -/
theorem setitem_int_always_unsupported (t : TensorView) (i : Int)
    (v : BatchArray) (S : Storage) (m : TensorMeta)
    (h : read_tensor_meta t.key S = some m) :
    tensor_setitem t (.int i) v S = .error .unsupported := by
  simp only [tensor_setitem, tensor_getitem, h]
  have hmerged : merge_slices t.tslice ⟨some i, some (i + 1), none⟩ ≠ fullSlice := by
    simp only [merge_slices]
    by_cases he : t.tslice = fullSlice
    · rw [if_pos he]; simp [fullSlice]
    · rw [if_neg he, if_neg (by simp [fullSlice])]
      simp [fullSlice]
  rw [if_pos (by simpa using hmerged)]

/-- Witness for `setitem_int_always_unsupported` at a concrete view,
storage and index. -/
theorem setitem_int_always_unsupported_witness :
    (read_tensor_meta "tensor" [(SKey.metaOf "tensor", Blob.metaBlob ⟨4, 1, 2, [3], [3]⟩)]
        = some ⟨4, 1, 2, [3], [3]⟩)
    ∧ tensor_setitem ⟨"tensor", fullSlice⟩ (.int 0) ⟨1, [3], [[97,98,99]]⟩
        [(SKey.metaOf "tensor", Blob.metaBlob ⟨4, 1, 2, [3], [3]⟩)] = .error .unsupported :=
  ⟨rfl, setitem_int_always_unsupported ⟨"tensor", fullSlice⟩ 0 ⟨1, [3], [[97,98,99]]⟩
    [(SKey.metaOf "tensor", Blob.metaBlob ⟨4, 1, 2, [3], [3]⟩)] ⟨4, 1, 2, [3], [3]⟩ rfl⟩

/-- Witness for `write_array_already_exists_iff` at a concrete occupied
key: the rejection fires and returns the storage unchanged. -/
theorem write_array_already_exists_iff_witness :
    write_array ⟨1, [3], [[97,98,99]]⟩ "tensor"
        [(SKey.metaOf "tensor", Blob.metaBlob ⟨4, 1, 1, [3], [3]⟩)] 4
      = .error (.alreadyExists, [(SKey.metaOf "tensor", Blob.metaBlob ⟨4, 1, 1, [3], [3]⟩)]) :=
  (write_array_already_exists_iff ⟨1, [3], [[97,98,99]]⟩ "tensor"
    [(SKey.metaOf "tensor", Blob.metaBlob ⟨4, 1, 1, [3], [3]⟩)] 4).1.mpr (Or.inl (by decide))

theorem alistGet?_remove_sum (l : List (String × Nat)) (k : String) :
    sizesSum l = ((alistGet? l k).getD 0) + sizesSum (alistRemove l k) := by
  induction l with
  | nil => simp [sizesSum, alistGet?, alistRemove]
  | cons hd tl ih =>
    obtain ⟨k', sz⟩ := hd
    by_cases h : k' = k
    · simp [sizesSum, alistGet?, alistRemove, h]
    · simp only [sizesSum, alistGet?, alistRemove, if_neg h, List.map_cons,
        List.sum_cons] at *
      omega

theorem sizesSum_dropLast (l : List (String × Nat)) (k : String) (sz : Nat)
    (h : l.getLast? = some (k, sz)) :
    sizesSum l = sizesSum l.dropLast + sz := by
  induction l with
  | nil => simp at h
  | cons hd tl ih =>
    cases tl with
    | nil =>
      simp only [List.getLast?_singleton, Option.some.injEq] at h
      subst h
      simp [sizesSum]
    | cons hd' tl' =>
      rw [List.getLast?_cons_cons] at h
      have := ih h
      simp only [sizesSum, List.dropLast_cons_of_ne_nil (by simp :
        (hd' :: tl') ≠ []), List.map_cons, List.sum_cons] at *
      omega

theorem popLRU_sum (st : LRUCache) (h : st.cache_used = sizesSum st.lru_sizes) :
    (popLRU st).cache_used = sizesSum (popLRU st).lru_sizes
      ∧ (popLRU st).cache_size = st.cache_size
      ∧ (popLRU st).lru_sizes.length = st.lru_sizes.length - 1 := by
  unfold popLRU
  cases hl : st.lru_sizes.getLast? with
  | none =>
    have : st.lru_sizes = [] := by
      cases hx : st.lru_sizes with
      | nil => rfl
      | cons a b => rw [hx] at hl; simp [List.getLast?_eq_getLast] at hl
    simp [this, h]
  | some p =>
    obtain ⟨k, sz⟩ := p
    have hsum := sizesSum_dropLast st.lru_sizes k sz hl
    have hlen : st.lru_sizes ≠ [] := by
      intro hx; rw [hx] at hl; simp at hl
    refine ⟨?_, rfl, ?_⟩
    · simp only [h, hsum]; omega
    · simp [List.length_dropLast]

theorem sizesSum_cons (k : String) (n : Nat) (l : List (String × Nat)) :
    sizesSum ((k, n) :: l) = n + sizesSum l := by
  simp [sizesSum]

theorem alistRemove_get_none {α : Type} (l : List (String × α)) (k : String)
    (h : alistGet? l k = none) : alistRemove l k = l := by
  induction l with
  | nil => rfl
  | cons hd tl ih =>
    obtain ⟨k', v⟩ := hd
    by_cases hk : k' = k
    · rw [hk] at h; simp [alistGet?] at h
    · simp only [alistGet?, if_neg hk] at h
      simp [alistRemove, if_neg hk, ih h]

theorem alist_singleton_remove (l : List (String × Nat)) (k : String)
    (sz : Nat) (hlen : l.length = 1) (h : alistGet? l k = some sz) :
    alistRemove l k = [] ∧ sizesSum l = sz := by
  cases l with
  | nil => simp at hlen
  | cons hd tl =>
    cases tl with
    | cons hd' tl' => simp at hlen
    | nil =>
      obtain ⟨k₀, s₀⟩ := hd
      by_cases hk : k₀ = k
      · simp only [alistGet?, if_pos hk, Option.some.injEq] at h
        subst h
        simp [alistRemove, hk, sizesSum]
      · simp only [alistGet?, if_neg hk] at h
        simp [alistGet?] at h

theorem evictAux_inv : ∀ (fuel : Nat) (st : LRUCache),
    st.cache_used = sizesSum st.lru_sizes →
    st.lru_sizes.length ≤ fuel →
    LRUInv (evictAux fuel st) ∧ (evictAux fuel st).cache_size = st.cache_size := by
  intro fuel
  induction fuel with
  | zero =>
    intro st hsum hlen
    have hnil : st.lru_sizes = [] := List.length_eq_zero.mp (Nat.le_zero.mp hlen)
    simp only [evictAux]
    exact ⟨⟨hsum, Or.inl (by rw [hsum, hnil]; simp [sizesSum])⟩, trivial⟩
  | succ n ih =>
    intro st hsum hlen
    by_cases hc : st.cache_used ≤ st.cache_size ∨ st.lru_sizes.length ≤ 1
    · simp only [evictAux, if_pos hc]
      refine ⟨⟨hsum, ?_⟩, trivial⟩
      rcases hc with hc | hc
      · exact Or.inl hc
      · rcases Nat.le_one_iff_eq_zero_or_eq_one.mp hc with h0 | h1
        · exact Or.inl (by rw [hsum, List.length_eq_zero.mp h0]; simp [sizesSum])
        · exact Or.inr h1
    · simp only [evictAux, if_neg hc]
      push_neg at hc
      obtain ⟨hs, hl, hlen'⟩ := popLRU_sum st hsum
      have := ih (popLRU st) hs (by omega)
      exact ⟨this.1, this.2.trans hl⟩

theorem evictLoop_inv (st : LRUCache)
    (hsum : st.cache_used = sizesSum st.lru_sizes) :
    LRUInv (evictLoop st) ∧ (evictLoop st).cache_size = st.cache_size :=
  evictAux_inv st.lru_sizes.length st hsum le_rfl

/-- **C8**: for an LRU cache tier with byte budget `cache_size`, at the end
of every cache operation (`get`, `put`, `delete`, `flush`) the `cache_used`
accounting equals the sum of the `lru_sizes` values and stays within the
budget, except that a single stored entry larger than the budget may exceed
it by itself. -/
theorem lru_operations_preserve_invariant (st : LRUCache) (k : String)
    (v : Bytes) (h : LRUInv st) :
    LRUInv (lruPut st k v)
    ∧ (∀ v' st', lruGet st k = some (v', st') → LRUInv st')
    ∧ (∀ st', lruDelete st k = some st' → LRUInv st')
    ∧ LRUInv (lruFlush st) := by
  obtain ⟨hsum, hbud⟩ := h
  have hrm := alistGet?_remove_sum st.lru_sizes k
  refine ⟨?_, ?_, ?_, ?_⟩
  · simp only [lruPut]
    refine (evictLoop_inv _ ?_).1
    dsimp only
    rw [sizesSum_cons]
    omega
  · intro v' st' hget
    unfold lruGet at hget
    cases hks : alistGet? st.lru_sizes k with
    | some sz =>
      rw [hks] at hget
      cases hcs : alistGet? st.cache_storage k with
      | some w =>
        rw [hcs] at hget
        injection hget with hpair
        injection hpair with hv hst
        subst hst
        rw [hks] at hrm
        simp only [Option.getD_some] at hrm
        constructor
        · dsimp only
          rw [sizesSum_cons]
          omega
        · rcases hbud with hb | hb
          · exact Or.inl hb
          · refine Or.inr ?_
            obtain ⟨hremove, _⟩ := alist_singleton_remove st.lru_sizes k sz hb hks
            dsimp only
            rw [hremove]
            rfl
      | none => rw [hcs] at hget; exact absurd hget (by simp)
    | none =>
      rw [hks] at hget
      cases hns : alistGet? st.next_storage k with
      | none => rw [hns] at hget; exact absurd hget (by simp)
      | some w =>
        rw [hns] at hget
        injection hget with hpair
        injection hpair with hv hst
        subst hst
        refine (evictLoop_inv _ ?_).1
        dsimp only
        rw [sizesSum_cons]
        omega
  · intro st' hdel
    unfold lruDelete at hdel
    by_cases hcond : ((alistGet? st.lru_sizes k).isNone
        && (alistGet? st.next_storage k).isNone) = true
    · rw [if_pos hcond] at hdel; exact absurd hdel (by simp)
    · rw [if_neg hcond] at hdel
      injection hdel with hst
      subst hst
      constructor
      · dsimp only
        omega
      · rcases hbud with hb | hb
        · refine Or.inl ?_
          dsimp only
          omega
        · cases hks : alistGet? st.lru_sizes k with
          | some sz =>
            refine Or.inl ?_
            obtain ⟨hremove, hsz⟩ := alist_singleton_remove st.lru_sizes k sz hb hks
            dsimp only
            simp only [Option.getD_some]
            omega
          | none =>
            refine Or.inr ?_
            dsimp only
            rw [alistRemove_get_none st.lru_sizes k hks]
            exact hb
  · exact ⟨hsum, hbud⟩

/-- Witness for `lru_operations_preserve_invariant` at a concrete tier
state holding one 3-byte entry under a 4-byte budget. -/
theorem lru_operations_preserve_invariant_witness :
    LRUInv ⟨[("a", 3)], ["a"], 3, 4, [("a", [1,2,3])], []⟩
    ∧ (LRUInv (lruPut ⟨[("a", 3)], ["a"], 3, 4, [("a", [1,2,3])], []⟩ "b" [7,8])
      ∧ (∀ v' st', lruGet ⟨[("a", 3)], ["a"], 3, 4, [("a", [1,2,3])], []⟩ "b" = some (v', st') → LRUInv st')
      ∧ (∀ st', lruDelete ⟨[("a", 3)], ["a"], 3, 4, [("a", [1,2,3])], []⟩ "b" = some st' → LRUInv st')
      ∧ LRUInv (lruFlush ⟨[("a", 3)], ["a"], 3, 4, [("a", [1,2,3])], []⟩)) :=
  ⟨⟨rfl, by simp [sizesSum]⟩,
    lru_operations_preserve_invariant _ "b" [7,8] ⟨rfl, by simp [sizesSum]⟩⟩

/-! ## Write-path invariant: list lemmas -/
theorem joinTail_cons_eq (c : Bytes) (rest : List Bytes) (e : Nat) :
    joinTail (c :: rest) e = if rest = [] then c.take e else c ++ joinTail rest e := by
  cases rest <;> simp [joinTail]

theorem join_chunks_cons_eq (c : Bytes) (rest : List Bytes) (s e : Nat) :
    join_chunks (c :: rest) s e =
      if rest = [] then (c.drop s).take (e - s) else c.drop s ++ joinTail rest e := by
  cases rest <;> simp [join_chunks]

theorem joinTail_concat (ds : List Bytes) (c : Bytes) (e : Nat) :
    joinTail (ds ++ [c]) e = ds.flatten ++ c.take e := by
  induction ds with
  | nil => simp [joinTail]
  | cons d ds ih =>
    rw [List.cons_append, joinTail_cons_eq]
    simp [ih]

theorem flatten_dropLast_getLast (l : List (List Nat)) (h : l ≠ []) :
    l.dropLast.flatten ++ l.getLast h = l.flatten := by
  conv_rhs => rw [← List.dropLast_append_getLast h]
  simp [List.flatten_append]

theorem join_chunks_eq_flatten_drop (ds : List Bytes) (s : Nat) (c0 ct : Bytes)
    (hhead : ds.head? = some c0) (hlast : ds.getLast? = some ct)
    (hs : s ≤ c0.length) :
    join_chunks ds s ct.length = ds.flatten.drop s := by
  cases ds with
  | nil => simp at hhead
  | cons c rest =>
    have hc : c = c0 := by simpa using hhead
    subst hc
    cases rest with
    | nil =>
      have hct : ct = c := by simpa using hlast.symm
      subst hct
      simp only [join_chunks, List.flatten_cons, List.flatten_nil, List.append_nil]
      rw [List.take_of_length_le]
      simp [List.length_drop]
    | cons d ds' =>
      have hrest : (d :: ds') ≠ [] := by simp
      obtain ⟨L, t, hLt⟩ : ∃ L t, d :: ds' = L ++ [t] :=
        ⟨(d :: ds').dropLast, (d :: ds').getLast hrest,
          (List.dropLast_append_getLast hrest).symm⟩
      have hct : ct = t := by
        rw [hLt, show c :: (L ++ [t]) = (c :: L) ++ [t] by simp,
          List.getLast?_concat] at hlast
        simpa using hlast.symm
      subst hct
      rw [join_chunks_cons_eq, if_neg (by simp), hLt, joinTail_concat,
        List.take_length]
      simp only [List.flatten_cons, List.flatten_append, List.flatten_nil,
        List.append_nil]
      rw [List.drop_append_of_le_length hs]

theorem take_drop_append_stable (c x : Bytes) (s e : Nat) (he : e ≤ c.length) :
    ((c ++ x).drop s).take (e - s) = (c.drop s).take (e - s) := by
  by_cases hs : s ≤ c.length
  · rw [List.drop_append_of_le_length hs, List.take_append_of_le_length]
    simp only [List.length_drop]
    omega
  · have h1 : e - s = 0 := by omega
    simp [h1]

theorem join_chunks_concat_stable (ds : List Bytes) (c x : Bytes) (s e : Nat)
    (he : e ≤ c.length) :
    join_chunks (ds ++ [c ++ x]) s e = join_chunks (ds ++ [c]) s e := by
  cases ds with
  | nil => simpa [join_chunks] using take_drop_append_stable c x s e he
  | cons d ds' =>
    rw [List.cons_append, List.cons_append, join_chunks_cons_eq,
      join_chunks_cons_eq, if_neg (by simp), if_neg (by simp),
      joinTail_concat, joinTail_concat, List.take_append_of_le_length he]

theorem chunkify_flatten (cs : Nat) (b : Bytes) : (chunkify cs b).flatten = b := by
  have H : ∀ (n : Nat) (b : Bytes), b.length ≤ n → (chunkify cs b).flatten = b := by
    intro n
    induction n with
    | zero =>
      intro b hb
      have hbnil : b = [] := List.length_eq_zero.mp (Nat.le_zero.mp hb)
      subst hbnil; rfl
    | succ n ih =>
      intro b hb
      rw [chunkify_eq]
      by_cases hbnil : b = []
      · subst hbnil; simp
      · rw [if_neg hbnil]
        by_cases hcs : cs = 0
        · rw [if_pos hcs]; simp
        · rw [if_neg hcs]
          have hlen : b.length ≠ 0 := by simpa [List.length_eq_zero] using hbnil
          have hd : (b.drop cs).length ≤ n := by
            simp only [List.length_drop]; omega
          simp only [List.flatten_cons, ih _ hd, List.take_append_drop]
  exact H b.length b le_rfl

theorem chunkify_nil_iff (cs : Nat) (b : Bytes) : chunkify cs b = [] ↔ b = [] := by
  constructor
  · intro h
    have := chunkify_flatten cs b
    rw [h] at this
    simpa using this.symm
  · intro h; subst h; rfl

theorem chunkify_mem_len (cs : Nat) (hcs : 1 ≤ cs) (b : Bytes) :
    ∀ c ∈ chunkify cs b, 0 < c.length ∧ c.length ≤ cs := by
  have H : ∀ (n : Nat) (b : Bytes), b.length ≤ n →
      ∀ c ∈ chunkify cs b, 0 < c.length ∧ c.length ≤ cs := by
    intro n
    induction n with
    | zero =>
      intro b hb
      have hbnil : b = [] := List.length_eq_zero.mp (Nat.le_zero.mp hb)
      subst hbnil; simp [chunkify, chunkifyAux]
    | succ n ih =>
      intro b hb c hc
      rw [chunkify_eq] at hc
      by_cases hbnil : b = []
      · rw [if_pos hbnil] at hc; simp at hc
      · rw [if_neg hbnil, if_neg (by omega)] at hc
        have hlen : b.length ≠ 0 := by simpa [List.length_eq_zero] using hbnil
        rcases List.mem_cons.mp hc with hc | hc
        · subst hc
          simp only [List.length_take]
          omega
        · exact ih (b.drop cs) (by simp only [List.length_drop]; omega) c hc
  exact H b.length b le_rfl

theorem chunkify_dropLast_full (cs : Nat) (hcs : 1 ≤ cs) (b : Bytes) :
    ∀ c ∈ (chunkify cs b).dropLast, c.length = cs := by
  have H : ∀ (n : Nat) (b : Bytes), b.length ≤ n →
      ∀ c ∈ (chunkify cs b).dropLast, c.length = cs := by
    intro n
    induction n with
    | zero =>
      intro b hb
      have hbnil : b = [] := List.length_eq_zero.mp (Nat.le_zero.mp hb)
      subst hbnil; simp [chunkify, chunkifyAux]
    | succ n ih =>
      intro b hb c hc
      rw [chunkify_eq] at hc
      by_cases hbnil : b = []
      · rw [if_pos hbnil] at hc; simp at hc
      · rw [if_neg hbnil, if_neg (by omega)] at hc
        have hlen : b.length ≠ 0 := by simpa [List.length_eq_zero] using hbnil
        by_cases hrest : chunkify cs (b.drop cs) = []
        · rw [hrest] at hc; simp at hc
        · rw [List.dropLast_cons_of_ne_nil hrest] at hc
          rcases List.mem_cons.mp hc with hc | hc
          · subst hc
            have hdne : b.drop cs ≠ [] := (chunkify_nil_iff cs _).not.mp hrest
            have : b.length > cs := by
              by_contra hcon
              exact hdne (by simp [List.drop_eq_nil_iff]; omega)
            simp only [List.length_take]
            omega
          · exact ih (b.drop cs) (by simp only [List.length_drop]; omega) c hc
  exact H b.length b le_rfl

theorem range'_getLast? (a k : Nat) (hk : 0 < k) :
    (List.range' a k).getLast? = some (a + k - 1) := by
  cases k with
  | zero => omega
  | succ n =>
    rw [List.range'_concat]
    simp [List.getLast?_concat]

theorem range'_head? (a k : Nat) (hk : 0 < k) :
    (List.range' a k).head? = some a := by
  rw [List.head?_range']
  simp [Nat.pos_iff_ne_zero.mp hk]

theorem mem_range'_bounds {a k n : Nat} (h : n ∈ List.range' a k) :
    a ≤ n ∧ n < a + k := by
  rcases List.mem_range'.mp h with ⟨i, hi, rfl⟩
  omega

theorem entryChunks_congr (cl cl' : List Bytes) (names : List Nat)
    (h : ∀ j ∈ names, cl'[j]? = cl[j]?) :
    entryChunks cl' names = entryChunks cl names := by
  unfold entryChunks
  exact List.map_congr_left (fun j hj => by rw [h j hj])

theorem fetchChunks_eq_entryChunks (key : String) (S : Storage)
    (cl : List Bytes) (names : List Nat)
    (h : ∀ j ∈ names, ∃ b, cl[j]? = some b
      ∧ storGet? S (get_chunk_key key j) = some (.bytes b)) :
    fetchChunks key S names = some (entryChunks cl names) := by
  induction names with
  | nil => rfl
  | cons n ns ih =>
    obtain ⟨b, hb, hs⟩ := h n (List.mem_cons_self n ns)
    have hrest := ih (fun j hj => h j (List.mem_cons_of_mem _ hj))
    simp [fetchChunks, hs, hrest, entryChunks, hb]

theorem mapM_eq_map_of_forall {α β : Type} (f : α → Option β) (g : α → β)
    (l : List α) (h : ∀ a ∈ l, f a = some (g a)) :
    l.mapM f = some (l.map g) := by
  induction l with
  | nil => rfl
  | cons a l ih =>
    rw [List.mapM_cons, h a (List.mem_cons_self a l),
      ih (fun x hx => h x (List.mem_cons_of_mem _ hx))]
    rfl

theorem get_chunk_key_inj (key : String) (a b : Nat) :
    get_chunk_key key a = get_chunk_key key b ↔ a = b := by
  simp [get_chunk_key]

/-- Behaviour of the chunk loop of `_write_bytes` once `extend_last_chunk`
is off: every piece goes to a freshly minted chunk name, the loop state
accumulates the names in order, and the storage gains exactly those
chunks. -/
theorem fold_nonextend (key : String) (cs prev_end : Nat) :
    ∀ (ps : List Bytes) (st : WBState), st.extend_last = false →
      (ps.foldl (writeChunkStep key cs prev_end) st).extend_last = false
      ∧ (ps.foldl (writeChunkStep key cs prev_end) st).chunk_names
          = st.chunk_names ++ List.range' st.ctr ps.length
      ∧ (ps.foldl (writeChunkStep key cs prev_end) st).ctr = st.ctr + ps.length
      ∧ (ps.foldl (writeChunkStep key cs prev_end) st).start_byte = st.start_byte
      ∧ (∀ lp, ps.getLast? = some lp →
          (ps.foldl (writeChunkStep key cs prev_end) st).end_byte = lp.length)
      ∧ (ps = [] → ps.foldl (writeChunkStep key cs prev_end) st = st)
      ∧ (∀ i piece, ps[i]? = some piece →
          storGet? (ps.foldl (writeChunkStep key cs prev_end) st).storage
            (get_chunk_key key (st.ctr + i)) = some (.bytes piece))
      ∧ (∀ sk, (∀ i, i < ps.length → sk ≠ get_chunk_key key (st.ctr + i)) →
          storGet? (ps.foldl (writeChunkStep key cs prev_end) st).storage sk
            = storGet? st.storage sk) := by
  intro ps
  induction ps with
  | nil =>
    intro st hst
    refine ⟨hst, by simp, by simp, rfl, ?_, fun _ => rfl, ?_, fun _ _ => rfl⟩
    · intro lp hlp; simp at hlp
    · intro i piece hp; simp at hp
  | cons piece rest ih =>
    intro st hst
    have hstep : writeChunkStep key cs prev_end st piece =
        { extend_last := false
          last_chunk_name := st.ctr
          last_chunk := piece
          chunk_names := st.chunk_names ++ [st.ctr]
          start_byte := st.start_byte
          end_byte := piece.length
          storage := storPut st.storage (get_chunk_key key st.ctr) (.bytes piece)
          ctr := st.ctr + 1 } := by
      simp [writeChunkStep, hst]
    simp only [List.foldl_cons, hstep]
    obtain ⟨ihext, ihnames, ihctr, ihstart, ihend, ihnil, ihstore, ihframe⟩ :=
      ih { extend_last := false
           last_chunk_name := st.ctr
           last_chunk := piece
           chunk_names := st.chunk_names ++ [st.ctr]
           start_byte := st.start_byte
           end_byte := piece.length
           storage := storPut st.storage (get_chunk_key key st.ctr) (.bytes piece)
           ctr := st.ctr + 1 } rfl
    refine ⟨ihext, ?_, ?_, ihstart, ?_, ?_, ?_, ?_⟩
    · rw [ihnames]
      simp only [List.length_cons, List.range'_succ]
      simp
    · rw [ihctr]
      simp only [List.length_cons]
      omega
    · intro lp hlp
      cases rest with
      | nil =>
        have hlp' : piece = lp := by simpa using hlp
        subst hlp'
        rw [ihnil rfl]
      | cons y ys =>
        rw [List.getLast?_cons_cons] at hlp
        exact ihend lp hlp
    · intro hcon; simp at hcon
    · intro i piece' hp
      cases i with
      | zero =>
        have hp' : piece = piece' := by simpa using hp
        subst hp'
        rw [Nat.add_zero]
        have hne : ∀ i', i' < rest.length →
            get_chunk_key key st.ctr ≠ get_chunk_key key (st.ctr + 1 + i') := by
          intro i' hi'
          rw [Ne, get_chunk_key_inj]
          omega
        exact (ihframe (get_chunk_key key st.ctr) hne).trans
          (storGet?_put_same st.storage _ _)
      | succ i =>
        have hp' : rest[i]? = some piece' := by simpa using hp
        have hst' := ihstore i piece' hp'
        have harith : st.ctr + 1 + i = st.ctr + (i + 1) := by omega
        rwa [harith] at hst'
    · intro sk hsk
      have hsk' : ∀ i, i < rest.length → sk ≠ get_chunk_key key (st.ctr + 1 + i) := by
        intro i hi
        have h1 := hsk (i + 1) (by simp; omega)
        have harith : st.ctr + (i + 1) = st.ctr + 1 + i := by omega
        rwa [harith] at h1
      exact (ihframe sk hsk').trans
        (storGet?_put_other st.storage _ sk _ (by
          have h0 := hsk 0 (by simp)
          simpa using h0))

/-- The invariant holds of the initial loop state. -/
theorem winv_init (key : String) (cs : Nat) (S₀ : Storage) (shape : List Nat) :
    WInv key cs S₀ shape [] [] S₀ 0 [] := by
  refine ⟨rfl, rfl, ?_, ?_, ?_, ?_, ?_, rfl, ?_, ?_, ?_, ?_, ?_, ?_⟩
  · intro c hc; simp at hc
  · intro c hc; simp at hc
  · intro j b hb; simp at hb
  · intro k' _; rfl
  · intro j _; rfl
  · intro e he; simp at he
  · intro e he; simp at he
  · intro e he; simp at he
  · intro e he; simp at he
  · intro t e bt he; simp at he
  · intro t e e' he; simp at he

theorem eq_nil_of_flatten_nil_pos (cl : List Bytes) (h : cl.flatten = [])
    (hpos : ∀ c ∈ cl, 0 < c.length) : cl = [] := by
  cases cl with
  | nil => rfl
  | cons c rest =>
    rw [List.flatten_cons, List.append_eq_nil] at h
    have := hpos c (List.mem_cons_self c rest)
    rw [h.1] at this
    simp at this

theorem flatten_ne_nil (p : List Bytes) (hne : p ≠ []) (hp : ∀ x ∈ p, x ≠ []) :
    p.flatten ≠ [] := by
  cases p with
  | nil => exact absurd rfl hne
  | cons x xs =>
    rw [List.flatten_cons]
    have hx := hp x (List.mem_cons_self x xs)
    intro hcon
    rw [List.append_eq_nil] at hcon
    exact hx hcon.1

theorem entryChunks_append (cl ps : List Bytes) :
    entryChunks (cl ++ ps) (List.range' cl.length ps.length) = ps := by
  apply List.ext_getElem?
  intro i
  simp only [entryChunks, List.getElem?_map]
  by_cases hi : i < ps.length
  · rw [List.getElem?_range' _ _ hi]
    simp only [Option.map_some']
    rw [List.getElem?_append_right (by omega)]
    have : cl.length + 1 * i - cl.length = i := by omega
    rw [this, List.getElem?_eq_getElem hi]
    simp
  · rw [List.getElem?_eq_none (by simp [List.length_range']; omega),
      List.getElem?_eq_none (by omega)]
    rfl

theorem readEntryFrom_append (cl ps : List Bytes) (e : IndexEntry)
    (h : ∀ n ∈ e.chunk_names, n < cl.length) :
    readEntryFrom (cl ++ ps) e = readEntryFrom cl e := by
  unfold readEntryFrom
  rw [entryChunks_congr]
  intro j hj
  rw [List.getElem?_append]
  rw [if_pos (h j hj)]

theorem entryChunks_range'_concat (cl : List Bytes) (a k : Nat) :
    entryChunks cl (List.range' a (k + 1))
      = entryChunks cl (List.range' a k) ++ [(cl[a + k]?).getD []] := by
  rw [List.range'_concat]
  simp [entryChunks]

/-- Extending the tail chunk in place does not change what an existing
entry reads, provided the entry's `end_byte` respects the old tail
length. -/
theorem readEntryFrom_extend_tail (cl cl' : List Bytes) (tail x : Bytes)
    (hlow : ∀ j, j < cl.length - 1 → cl'[j]? = cl[j]?)
    (htail : cl[cl.length - 1]? = some tail)
    (htail' : cl'[cl.length - 1]? = some (tail ++ x))
    (e : IndexEntry) (a k : Nat) (hk : 0 < k) (hak : a + k ≤ cl.length)
    (hnames : e.chunk_names = List.range' a k)
    (hm : a + k - 1 = cl.length - 1)
    (hend : e.end_byte ≤ tail.length) :
    readEntryFrom cl' e = readEntryFrom cl e := by
  obtain ⟨kp, rfl⟩ : ∃ kp, k = kp + 1 := ⟨k - 1, by omega⟩
  have hm' : a + kp = cl.length - 1 := by omega
  have hEagree : entryChunks cl' (List.range' a kp) = entryChunks cl (List.range' a kp) := by
    apply entryChunks_congr
    intro j hj
    have := mem_range'_bounds hj
    exact hlow j (by omega)
  unfold readEntryFrom
  rw [hnames, entryChunks_range'_concat, entryChunks_range'_concat, hEagree,
    hm', htail, htail']
  simp only [Option.getD_some]
  exact join_chunks_concat_stable _ tail x _ _ hend

theorem coveredTail_eq_joinTail (S : Storage) (key : String) (cl : List Bytes) :
    ∀ (rest : List Nat) (eend : Nat), rest ≠ [] →
    (∀ n ∈ rest, n < cl.length) →
    (∀ (j : Nat) (b : Bytes), cl[j]? = some b →
        storGet? S (get_chunk_key key j) = some (.bytes b)) →
    (∀ (m : Nat) (b : Bytes), rest.getLast? = some m → cl[m]? = some b →
        eend ≤ b.length) →
    coveredTail S key rest eend = (joinTail (entryChunks cl rest) eend).length := by
  intro rest
  induction rest with
  | nil => intro eend h; exact absurd rfl h
  | cons m rest' ih =>
    intro eend _ hbound hstore hlast
    have hmlt : m < cl.length := hbound m (List.mem_cons_self m rest')
    obtain ⟨bm, hbm⟩ : ∃ bm, cl[m]? = some bm :=
      ⟨cl[m], List.getElem?_eq_getElem hmlt⟩
    have hchunk : chunkLen S key m = bm.length := by
      unfold chunkLen
      rw [hstore m bm hbm]
    cases rest' with
    | nil =>
      have hle : eend ≤ bm.length := hlast m bm rfl hbm
      simp only [coveredTail, entryChunks, List.map_cons, List.map_nil,
        joinTail, hbm, Option.getD_some]
      rw [List.length_take]
      omega
    | cons m' rest'' =>
      have hrec := ih eend (by simp)
        (fun n hn => hbound n (List.mem_cons_of_mem _ hn)) hstore
        (fun mm bb hmm hbb => hlast mm bb (by rw [List.getLast?_cons_cons]; exact hmm) hbb)
      simp only [coveredTail, entryChunks, List.map_cons] at hrec ⊢
      rw [joinTail_cons_eq, if_neg (by simp)]
      simp only [List.length_append, hbm, Option.getD_some]
      omega

/-- The claim-C3 byte count of an entry equals the length of the byte range
the entry denotes. -/
theorem coveredBytes_eq_read_length (S : Storage) (key : String)
    (cl : List Bytes) (e : IndexEntry) (a k : Nat) (hk : 0 < k)
    (hak : a + k ≤ cl.length) (hnames : e.chunk_names = List.range' a k)
    (hstore : ∀ (j : Nat) (b : Bytes), cl[j]? = some b →
        storGet? S (get_chunk_key key j) = some (.bytes b))
    (hend : ∀ (m : Nat) (b : Bytes), e.chunk_names.getLast? = some m →
        cl[m]? = some b → e.end_byte ≤ b.length) :
    coveredBytes S key e = (readEntryFrom cl e).length := by
  obtain ⟨ba, hba⟩ : ∃ ba, cl[a]? = some ba :=
    ⟨cl.get ⟨a, by omega⟩, List.getElem?_eq_getElem (by omega)⟩
  cases k with
  | zero => omega
  | succ kp =>
    cases kp with
    | zero =>
      have hr1 : List.range' a (0 + 1) = [a] := by simp
      rw [hr1] at hnames
      have hlast : e.chunk_names.getLast? = some a := by
        rw [hnames]; rfl
      have hle : e.end_byte ≤ ba.length := hend a ba hlast hba
      unfold coveredBytes readEntryFrom
      rw [hnames]
      simp only [entryChunks, List.map_cons, List.map_nil, join_chunks, hba,
        Option.getD_some]
      rw [List.length_take, List.length_drop]
      omega
    | succ kq =>
      have hnames' : e.chunk_names = a :: List.range' (a + 1) (kq + 1) := by
        rw [hnames, List.range'_succ]
      have hrest_ne : List.range' (a + 1) (kq + 1) ≠ [] := by simp
      have hlast_eq : e.chunk_names.getLast? = (List.range' (a + 1) (kq + 1)).getLast? := by
        rw [hnames']
        cases hx : List.range' (a + 1) (kq + 1) with
        | nil => exact absurd hx hrest_ne
        | cons y ys => rw [List.getLast?_cons_cons]
      have htailEq := coveredTail_eq_joinTail S key cl
        (List.range' (a + 1) (kq + 1)) e.end_byte hrest_ne
        (fun n hn => by have := mem_range'_bounds hn; omega) hstore
        (fun m bb hm hbb => hend m bb (by rw [hlast_eq]; exact hm) hbb)
      unfold coveredBytes readEntryFrom
      rw [hnames']
      simp only [entryChunks, List.map_cons]
      rw [join_chunks_cons_eq, if_neg (by simp [hrest_ne])]
      have hchunka : chunkLen S key a = ba.length := by
        unfold chunkLen
        rw [hstore a ba hba]
      simp only [hba, Option.getD_some, List.length_append, List.length_drop,
        hchunka]
      simp only [entryChunks] at htailEq
      omega

/-- Re-establishing the loop invariant after one sample: the storage-level
clauses are supplied per case; this lemma handles the index bookkeeping of
appending the sample and its entry. -/
theorem winv_snoc (key : String) (cs : Nat) (S₀ : Storage) (shape : List Nat)
    (p : List Bytes) (IM : List IndexEntry) (S' : Storage) (ctr' : Nat)
    (cl' : List Bytes) (b : Bytes) (newe : IndexEntry)
    (him : IM.length = p.length)
    (hctr : ctr' = cl'.length)
    (hflat : cl'.flatten = (p ++ [b]).flatten)
    (hpos : ∀ c ∈ cl', 0 < c.length ∧ c.length ≤ cs)
    (hfull : ∀ c ∈ cl'.dropLast, c.length = cs)
    (hstore : ∀ (j : Nat) (c : Bytes), cl'[j]? = some c →
        storGet? S' (get_chunk_key key j) = some (.bytes c))
    (hframeo : ∀ k', (∀ j, k' ≠ get_chunk_key key j) →
        storGet? S' k' = storGet? S₀ k')
    (hframeh : ∀ j, cl'.length ≤ j →
        storGet? S' (get_chunk_key key j) = storGet? S₀ (get_chunk_key key j))
    (hnames_old : ∀ e ∈ IM, ∃ a k, 0 < k ∧ a + k ≤ ctr' ∧
        e.chunk_names = List.range' a k)
    (hnames_new : ∃ a k, 0 < k ∧ a + k ≤ ctr' ∧
        newe.chunk_names = List.range' a k)
    (hshape_old : ∀ e ∈ IM, e.shape = shape)
    (hshape_new : newe.shape = shape)
    (hend_old : ∀ e ∈ IM, ∀ (m : Nat) (c : Bytes), e.chunk_names.getLast? = some m →
        cl'[m]? = some c → e.end_byte ≤ c.length)
    (hend_new : ∀ (m : Nat) (c : Bytes), newe.chunk_names.getLast? = some m →
        cl'[m]? = some c → newe.end_byte ≤ c.length)
    (hlast_new : newe.chunk_names.getLast? = some (cl'.length - 1) ∧
        ∀ c, cl'.getLast? = some c → newe.end_byte = c.length)
    (hreads_old : ∀ (t : Nat) (e : IndexEntry) (bt : Bytes), IM[t]? = some e →
        p[t]? = some bt → readEntryFrom cl' e = bt)
    (hread_new : readEntryFrom cl' newe = b)
    (hboundary_old : ∀ (t : Nat) (e e' : IndexEntry), IM[t]? = some e →
        IM[t + 1]? = some e' →
        (e'.start_byte = e.end_byte ∧ e'.chunk_names.head? = e.chunk_names.getLast?)
        ∨ (e'.start_byte = 0 ∧ ∀ (u : Nat) (eu : IndexEntry) (n : Nat), u ≤ t →
            IM[u]? = some eu → e'.chunk_names.head? = some n → n ∉ eu.chunk_names))
    (hboundary_new : ∀ e₀, IM.getLast? = some e₀ →
        (newe.start_byte = e₀.end_byte ∧
            newe.chunk_names.head? = e₀.chunk_names.getLast?)
        ∨ (newe.start_byte = 0 ∧ ∀ n, newe.chunk_names.head? = some n →
            ∀ eu ∈ IM, n ∉ eu.chunk_names)) :
    WInv key cs S₀ shape (p ++ [b]) (IM ++ [newe]) S' ctr' cl' := by
  have hmem : ∀ e, e ∈ IM ++ [newe] → e ∈ IM ∨ e = newe := by
    intro e he
    rcases List.mem_append.mp he with he | he
    · exact Or.inl he
    · exact Or.inr (by simpa using he)
  refine ⟨hctr, hflat, hpos, hfull, hstore, hframeo, hframeh, ?_, ?_, ?_, ?_, ?_, ?_, ?_⟩
  · simp [him]
  · intro e he
    rcases hmem e he with he | rfl
    · exact hnames_old e he
    · exact hnames_new
  · intro e he
    rcases hmem e he with he | rfl
    · exact hshape_old e he
    · exact hshape_new
  · intro e he
    rcases hmem e he with he | rfl
    · exact hend_old e he
    · exact hend_new
  · intro e he
    rw [List.getLast?_concat] at he
    cases he
    exact hlast_new
  · intro t e bt he hbt
    by_cases ht : t < IM.length
    · rw [List.getElem?_append, if_pos ht] at he
      rw [List.getElem?_append, if_pos (by omega)] at hbt
      exact hreads_old t e bt he hbt
    · have ht' : t = IM.length := by
        by_contra hcon
        rw [List.getElem?_eq_none (by simp; omega)] at he
        exact absurd he (by simp)
      subst ht'
      rw [List.getElem?_concat_length] at he
      rw [him, List.getElem?_concat_length] at hbt
      cases he
      cases hbt
      exact hread_new
  · intro t e e' he he'
    by_cases ht : t + 1 < IM.length
    · rw [List.getElem?_append, if_pos ht] at he'
      rw [List.getElem?_append, if_pos (by omega)] at he
      rcases hboundary_old t e e' he he' with ⟨h1, h2⟩ | ⟨h1, h2⟩
      · exact Or.inl ⟨h1, h2⟩
      · refine Or.inr ⟨h1, ?_⟩
        intro u eu n hu hgu hhd
        rw [List.getElem?_append, if_pos (by omega)] at hgu
        exact h2 u eu n hu hgu hhd
    · have ht' : t + 1 = IM.length := by
        by_contra hcon
        rw [List.getElem?_eq_none (by simp; omega)] at he'
        exact absurd he' (by simp)
      rw [ht', List.getElem?_concat_length] at he'
      cases he'
      have hne : IM ≠ [] := by
        intro hcon
        rw [hcon] at ht'
        simp at ht'
      have hlt : t < IM.length := by omega
      rw [List.getElem?_append, if_pos hlt] at he
      have hlastIM : IM.getLast? = some e := by
        rw [List.getLast?_eq_getElem?]
        rw [show IM.length - 1 = t by omega]
        exact he
      rcases hboundary_new e hlastIM with ⟨h1, h2⟩ | ⟨h1, h2⟩
      · exact Or.inl ⟨h1, h2⟩
      · refine Or.inr ⟨h1, ?_⟩
        intro u eu n hu hgu hhd
        rw [List.getElem?_append, if_pos (by omega)] at hgu
        exact h2 n hhd eu (List.getElem?_mem hgu)

/-- `_write_bytes` when `extend_last_chunk` is off (fresh tensor, or full
tail chunk): the sample is chunked into fresh chunks appended after `cl`. -/
theorem write_bytes_spec_noextend (key : String) (cs : Nat) (S₀ : Storage)
    (shape : List Nat) (p : List Bytes) (IM : List IndexEntry) (S : Storage)
    (ctr : Nat) (cl : List Bytes) (b : Bytes) (lname : Nat) (lchunk : Bytes)
    (inv : WInv key cs S₀ shape p IM S ctr cl)
    (hb : b ≠ []) (hcs : 1 ≤ cs)
    (hglc : _get_last_chunk key IM S = some (lname, lchunk))
    (hext : (decide (IM ≠ []) && decide (lchunk.length < cs)) = false)
    (hfullcl : ∀ c ∈ cl, c.length = cs) :
    ∃ names s e S' ctr' cl',
      _write_bytes b key cs S IM ctr = some ((names, s, e), S', ctr')
      ∧ WInv key cs S₀ shape (p ++ [b]) (IM ++ [⟨names, s, e, shape⟩]) S' ctr' cl' := by
  have hpne : chunkify cs b ≠ [] := fun h => hb ((chunkify_nil_iff cs b).mp h)
  obtain ⟨lp, hlp⟩ : ∃ lp, (chunkify cs b).getLast? = some lp := by
    cases hx : (chunkify cs b).getLast? with
    | none => exact absurd (List.getLast?_eq_none_iff.mp hx) hpne
    | some lp => exact ⟨lp, rfl⟩
  set st0 : WBState :=
    { extend_last := false, last_chunk_name := lname, last_chunk := lchunk
      chunk_names := [], start_byte := 0, end_byte := 0, storage := S
      ctr := ctr } with hst0
  set prev_end : Nat := ((IM.getLast?).map (·.end_byte)).getD 0 with hpe
  obtain ⟨fext, fnames, fctr, fstart, fend, -, fstore, fframe⟩ :=
    fold_nonextend key cs prev_end (chunkify cs b) st0 rfl
  set stF : WBState := (chunkify cs b).foldl (writeChunkStep key cs prev_end) st0
    with hstF
  have hwb : _write_bytes b key cs S IM ctr =
      some ((stF.chunk_names, stF.start_byte, stF.end_byte), stF.storage, stF.ctr) := by
    simp only [_write_bytes, hglc, hext, Bool.false_eq_true, if_false,
      generate_chunks, if_neg hb, eq_self_iff_true, if_true]
    rw [if_neg hpne]
  set kp : Nat := (chunkify cs b).length with hkp
  have hkp_pos : 0 < kp := by
    rw [hkp]
    cases hx : chunkify cs b with
    | nil => exact absurd hx hpne
    | cons y ys => simp
  have hnames' : stF.chunk_names = List.range' ctr kp := by
    rw [hstF, fnames]; rfl
  have hstart' : stF.start_byte = 0 := by rw [hstF, fstart]
  have hend' : stF.end_byte = lp.length := by rw [hstF]; exact fend lp hlp
  have hctr' : stF.ctr = ctr + kp := by rw [hstF, fctr]
  have hcl_len : ctr = cl.length := inv.ctr_eq
  have hentry : (⟨stF.chunk_names, stF.start_byte, stF.end_byte, shape⟩ : IndexEntry)
      = ⟨List.range' ctr kp, 0, lp.length, shape⟩ := by
    rw [hnames', hstart', hend']
  refine ⟨stF.chunk_names, stF.start_byte, stF.end_byte, stF.storage, stF.ctr,
    cl ++ chunkify cs b, hwb, ?_⟩
  rw [hentry, hctr']
  -- storage characterization of stF.storage
  have hstore_new : ∀ (i : Nat) (piece : Bytes), (chunkify cs b)[i]? = some piece →
      storGet? stF.storage (get_chunk_key key (ctr + i)) = some (.bytes piece) := by
    intro i piece hpipe
    exact fstore i piece hpipe
  have hframe_keys : ∀ sk, (∀ i, i < kp → sk ≠ get_chunk_key key (ctr + i)) →
      storGet? stF.storage sk = storGet? S sk := by
    intro sk hsk
    exact fframe sk hsk
  apply winv_snoc
  · exact inv.im_len
  · simp [hkp, hcl_len]
  · rw [List.flatten_append, inv.flatten_eq, chunkify_flatten, List.flatten_append]
    simp
  · intro c hc
    rcases List.mem_append.mp hc with hc | hc
    · exact ⟨by rw [hfullcl c hc]; omega, le_of_eq (hfullcl c hc)⟩
    · exact chunkify_mem_len cs hcs b c hc
  · intro c hc
    rw [List.dropLast_append_of_ne_nil _ hpne] at hc
    rcases List.mem_append.mp hc with hc | hc
    · exact hfullcl c hc
    · exact chunkify_dropLast_full cs hcs b c hc
  · intro j c hjc
    by_cases hj : j < cl.length
    · rw [List.getElem?_append, if_pos hj] at hjc
      have hkey : ∀ i, i < kp → get_chunk_key key j ≠ get_chunk_key key (ctr + i) := by
        intro i hi
        rw [Ne, get_chunk_key_inj]
        omega
      rw [hframe_keys _ hkey]
      exact inv.store_chunk j c hjc
    · rw [List.getElem?_append_right (by omega)] at hjc
      have hj' : j = ctr + (j - cl.length) := by omega
      rw [hj']
      exact hstore_new (j - cl.length) c hjc
  · intro k' hk'
    have hkey : ∀ i, i < kp → k' ≠ get_chunk_key key (ctr + i) := fun i _ => hk' _
    rw [hframe_keys k' hkey]
    exact inv.frame_other k' hk'
  · intro j hj
    rw [List.length_append] at hj
    have hkey : ∀ i, i < kp → get_chunk_key key j ≠ get_chunk_key key (ctr + i) := by
      intro i hi
      rw [Ne, get_chunk_key_inj]
      omega
    rw [hframe_keys _ hkey]
    exact inv.frame_hi j (by omega)
  · intro e he
    obtain ⟨a, k, hk, hak, hn⟩ := inv.entry_names e he
    exact ⟨a, k, hk, by omega, hn⟩
  · exact ⟨ctr, kp, hkp_pos, by rfl, rfl⟩
  · exact inv.entry_shape
  · rfl
  · intro e he m c hm hc
    obtain ⟨a, k, hk, hak, hn⟩ := inv.entry_names e he
    have hmlt : m < cl.length := by
      rw [hn, range'_getLast? a k hk] at hm
      cases hm
      omega
    rw [List.getElem?_append, if_pos hmlt] at hc
    exact inv.entry_end e he m c hm hc
  · intro m c hm hc
    simp only [range'_getLast? ctr kp hkp_pos] at hm
    cases hm
    rw [List.getElem?_append_right (by omega)] at hc
    have : ctr + kp - 1 - cl.length = kp - 1 := by omega
    rw [this] at hc
    rw [← List.getLast?_eq_getElem?] at hc
    rw [hlp] at hc
    cases hc
    exact le_rfl
  · constructor
    · rw [range'_getLast? ctr kp hkp_pos, List.length_append]
      have : ctr + kp - 1 = cl.length + kp - 1 := by omega
      rw [this]
    · intro c hc
      rw [List.getLast?_append, hlp] at hc
      simp only [Option.or_some] at hc
      cases hc
      rfl
  · intro t e bt he hbt
    rw [readEntryFrom_append]
    · exact inv.reads_cl t e bt he hbt
    · intro n hn
      obtain ⟨a, k, hk, hak, hname⟩ := inv.entry_names e (List.getElem?_mem he)
      rw [hname] at hn
      have := mem_range'_bounds hn
      omega
  · unfold readEntryFrom
    simp only
    rw [show List.range' ctr kp = List.range' cl.length (chunkify cs b).length by
      rw [hcl_len, hkp]]
    rw [entryChunks_append]
    obtain ⟨c0, hc0⟩ : ∃ c0, (chunkify cs b).head? = some c0 := by
      cases hx : chunkify cs b with
      | nil => exact absurd hx hpne
      | cons y ys => exact ⟨y, rfl⟩
    rw [join_chunks_eq_flatten_drop _ _ c0 lp hc0 hlp (by omega)]
    rw [chunkify_flatten]
    rfl
  · exact inv.boundary
  · intro e₀ he₀
    refine Or.inr ⟨rfl, ?_⟩
    intro n hn eu heu
    have hhead : (List.range' ctr kp).head? = some ctr := range'_head? ctr kp hkp_pos
    rw [hhead] at hn
    cases hn
    intro hmem
    obtain ⟨a, k, hk, hak, hname⟩ := inv.entry_names eu heu
    rw [hname] at hmem
    have := mem_range'_bounds hmem
    omega

theorem exists_concat_of_getLast? {α : Type} (l : List α) (x : α)
    (h : l.getLast? = some x) : ∃ L, l = L ++ [x] := by
  have hne : l ≠ [] := by
    intro hcon; rw [hcon] at h; simp at h
  refine ⟨l.dropLast, ?_⟩
  have hx : l.getLast hne = x := by
    rw [List.getLast?_eq_getLast l hne] at h
    exact Option.some.inj h
  rw [← hx]
  exact (List.dropLast_append_getLast hne).symm

/-- The last-chunk lookup of `_write_bytes`, derived from the invariant when
the index map is non-empty. -/
theorem glc_of_inv (key : String) (cs : Nat) (S₀ : Storage) (shape : List Nat)
    (p : List Bytes) (IM : List IndexEntry) (S : Storage) (ctr : Nat)
    (cl : List Bytes) (inv : WInv key cs S₀ shape p IM S ctr cl)
    (hIMne : IM ≠ []) (hp : ∀ x ∈ p, x ≠ []) :
    ∃ e₀ tail, IM.getLast? = some e₀
      ∧ cl.getLast? = some tail
      ∧ _get_last_chunk key IM S = some (cl.length - 1, tail)
      ∧ e₀.end_byte = tail.length := by
  obtain ⟨e₀, he₀⟩ : ∃ e₀, IM.getLast? = some e₀ := by
    cases hx : IM.getLast? with
    | none => exact absurd (List.getLast?_eq_none_iff.mp hx) hIMne
    | some e => exact ⟨e, rfl⟩
  have hpne : p ≠ [] := by
    intro hcon
    rw [hcon] at inv
    have := inv.im_len
    simp at this
    exact hIMne this
  have hclne : cl ≠ [] := by
    intro hcon
    have h1 := inv.flatten_eq
    rw [hcon] at h1
    exact flatten_ne_nil p hpne hp h1.symm
  obtain ⟨tail, htail⟩ : ∃ tail, cl.getLast? = some tail := by
    cases hx : cl.getLast? with
    | none => exact absurd (List.getLast?_eq_none_iff.mp hx) hclne
    | some t => exact ⟨t, rfl⟩
  obtain ⟨hname₀, hend₀⟩ := inv.last_entry e₀ he₀
  have hclget : cl[cl.length - 1]? = some tail := by
    rw [← List.getLast?_eq_getElem?]
    exact htail
  have hstor := inv.store_chunk (cl.length - 1) tail hclget
  refine ⟨e₀, tail, he₀, htail, ?_, hend₀ tail htail⟩
  unfold _get_last_chunk
  rw [he₀]
  simp only
  rw [hname₀]
  simp only
  rw [hstor]

/-- `_write_bytes` when the sample fits inside the tail chunk's headroom:
the tail is extended in place and no new chunk is created. -/
theorem write_bytes_spec_extend_fit (key : String) (cs : Nat) (S₀ : Storage)
    (shape : List Nat) (p : List Bytes) (IM : List IndexEntry) (S : Storage)
    (ctr : Nat) (cl : List Bytes) (b : Bytes) (e₀ : IndexEntry) (tail : Bytes)
    (inv : WInv key cs S₀ shape p IM S ctr cl)
    (hb : b ≠ []) (hcs : 1 ≤ cs) (hIMne : IM ≠ [])
    (he₀ : IM.getLast? = some e₀)
    (htail : cl.getLast? = some tail)
    (hglc : _get_last_chunk key IM S = some (cl.length - 1, tail))
    (hpe : e₀.end_byte = tail.length)
    (hlt : tail.length < cs)
    (hfit : b.length ≤ cs - tail.length) :
    ∃ names s e S' ctr' cl',
      _write_bytes b key cs S IM ctr = some ((names, s, e), S', ctr')
      ∧ WInv key cs S₀ shape (p ++ [b]) (IM ++ [⟨names, s, e, shape⟩]) S' ctr' cl' := by
  obtain ⟨L, rfl⟩ := exists_concat_of_getLast? cl tail htail
  set n : Nat := L.length with hn
  have hcl_len : (L ++ [tail]).length = n + 1 := by simp
  have hctr : ctr = n + 1 := by rw [inv.ctr_eq, hcl_len]
  have hidx : (L ++ [tail]).length - 1 = n := by simp
  have hextT : (decide (IM ≠ []) && decide (tail.length < cs)) = true := by
    simp [hIMne, hlt]
  have hbllc_ne : cs - tail.length ≠ 0 := by omega
  have htake : b.take (cs - tail.length) = b :=
    List.take_of_length_le (by omega)
  have hdrop : b.drop (cs - tail.length) = [] :=
    List.drop_eq_nil_of_le (by omega)
  have hstep : writeChunkStep key cs e₀.end_byte
      { extend_last := true, last_chunk_name := n, last_chunk := tail
        chunk_names := [], start_byte := 0, end_byte := 0, storage := S
        ctr := ctr } b =
      { extend_last := decide ((tail ++ b).length < cs)
        last_chunk_name := n, last_chunk := tail ++ b
        chunk_names := [n], start_byte := e₀.end_byte
        end_byte := (tail ++ b).length
        storage := storPut S (get_chunk_key key n) (.bytes (tail ++ b))
        ctr := ctr } := by
    simp [writeChunkStep]
  have hwb : _write_bytes b key cs S IM ctr =
      some (([n], e₀.end_byte, (tail ++ b).length),
        storPut S (get_chunk_key key n) (.bytes (tail ++ b)), ctr) := by
    simp only [_write_bytes, hglc, hidx, hextT, if_true, generate_chunks,
      if_neg hb, if_neg hbllc_ne, htake, hdrop, chunkify, chunkifyAux,
      List.length_nil]
    rw [if_neg (by simp)]
    rw [he₀]
    simp only [Option.map_some', Option.getD_some, List.foldl_cons,
      List.foldl_nil, hstep]
  refine ⟨[n], e₀.end_byte, (tail ++ b).length,
    storPut S (get_chunk_key key n) (.bytes (tail ++ b)), ctr,
    L ++ [tail ++ b], hwb, ?_⟩
  have hclget : ∀ j, j < n → (L ++ [tail ++ b])[j]? = (L ++ [tail])[j]? := by
    intro j hj
    rw [List.getElem?_append, if_pos hj, List.getElem?_append, if_pos hj]
  have hclget_n : (L ++ [tail ++ b])[n]? = some (tail ++ b) :=
    List.getElem?_concat_length L _
  have hclget_n' : (L ++ [tail])[n]? = some tail :=
    List.getElem?_concat_length L _
  have hmemcl : ∀ c, c ∈ L ++ [tail ++ b] → c ∈ L ∨ c = tail ++ b := by
    intro c hc
    rcases List.mem_append.mp hc with hc | hc
    · exact Or.inl hc
    · exact Or.inr (by simpa using hc)
  apply winv_snoc
  · exact inv.im_len
  · rw [hctr]; simp
  · have h2 : L.flatten ++ tail = p.flatten := by
      have h3 := inv.flatten_eq
      rw [List.flatten_append] at h3
      simpa using h3
    rw [List.flatten_append, List.flatten_append]
    simp only [List.flatten_cons, List.flatten_nil, List.append_nil]
    rw [← List.append_assoc, h2]
  · intro c hc
    rcases hmemcl c hc with hc | rfl
    · exact inv.chunk_pos c (List.mem_append_left _ hc)
    · constructor
      · simp only [List.length_append]
        have := hb
        cases b with
        | nil => exact absurd rfl this
        | cons y ys => simp
      · simp only [List.length_append]; omega
  · intro c hc
    rw [List.dropLast_concat] at hc
    exact inv.chunk_full c (by rw [List.dropLast_concat]; exact hc)
  · intro j c hjc
    by_cases hj : j < n
    · rw [hclget j hj] at hjc
      have hne : get_chunk_key key j ≠ get_chunk_key key n := by
        rw [Ne, get_chunk_key_inj]; omega
      rw [storGet?_put_other S _ _ _ hne]
      exact inv.store_chunk j c hjc
    · by_cases hj' : j = n
      · subst hj'
        rw [hclget_n] at hjc
        cases hjc
        exact storGet?_put_same S _ _
      · rw [List.getElem?_eq_none (by simp; omega)] at hjc
        exact absurd hjc (by simp)
  · intro k' hk'
    rw [storGet?_put_other S _ _ _ (hk' n)]
    exact inv.frame_other k' hk'
  · intro j hj
    rw [List.length_append] at hj
    have hne : get_chunk_key key j ≠ get_chunk_key key n := by
      rw [Ne, get_chunk_key_inj]
      simp only [List.length_singleton] at hj
      omega
    rw [storGet?_put_other S _ _ _ hne]
    exact inv.frame_hi j (by simp; simp only [List.length_singleton] at hj; omega)
  · intro e he
    exact inv.entry_names e he
  · exact ⟨n, 1, by omega, by omega, by simp⟩
  · exact inv.entry_shape
  · rfl
  · intro e he m c hm hc
    obtain ⟨a, k, hk, hak, hname⟩ := inv.entry_names e he
    have hmn : m ≤ n := by
      rw [hname, range'_getLast? a k hk] at hm
      cases hm
      rw [hctr] at hak
      omega
    by_cases hmlt : m < n
    · rw [hclget m hmlt] at hc
      exact inv.entry_end e he m c hm hc
    · have hmeq : m = n := by omega
      subst hmeq
      rw [hclget_n] at hc
      cases hc
      have hprev := inv.entry_end e he n tail hm hclget_n'
      simp only [List.length_append]
      omega
  · intro m c hm hc
    have hm' : n = m := by simpa using hm
    subst hm'
    rw [hclget_n] at hc
    cases hc
    exact le_rfl
  · constructor
    · simp
    · intro c hc
      rw [List.getLast?_concat] at hc
      cases hc
      rfl
  · intro t e bt he hbt
    obtain ⟨a, k, hk, hak, hname⟩ := inv.entry_names e (List.getElem?_mem he)
    rw [hctr] at hak
    by_cases hmlt : a + k - 1 < n
    · rw [show readEntryFrom (L ++ [tail ++ b]) e = readEntryFrom (L ++ [tail]) e by
        unfold readEntryFrom
        rw [entryChunks_congr]
        intro j hj
        rw [hname] at hj
        have := mem_range'_bounds hj
        exact hclget j (by omega)]
      exact inv.reads_cl t e bt he hbt
    · have hmeq : a + k - 1 = n := by omega
      rw [readEntryFrom_extend_tail (L ++ [tail]) (L ++ [tail ++ b]) tail b
        (by intro j hj; exact hclget j (by simpa using hj))
        (by rw [hidx]; exact hclget_n')
        (by rw [hidx]; exact hclget_n)
        e a k hk (by simp; omega) hname (by rw [hidx]; omega)
        (inv.entry_end e (List.getElem?_mem he) n tail
          (by rw [hname, range'_getLast? a k hk, hmeq]) hclget_n')]
      exact inv.reads_cl t e bt he hbt
  · unfold readEntryFrom
    simp only [entryChunks, List.map_cons, List.map_nil, hclget_n,
      Option.getD_some, join_chunks, hpe]
    rw [List.drop_append_of_le_length le_rfl, List.drop_length,
      List.nil_append, List.length_append]
    rw [show tail.length + b.length - tail.length = b.length by omega]
    exact List.take_length b
  · exact inv.boundary
  · intro e₁ he₁
    have he₁' : e₁ = e₀ := by
      rw [he₀] at he₁
      exact Option.some.inj he₁.symm
    subst he₁'
    refine Or.inl ⟨rfl, ?_⟩
    obtain ⟨hname₀, -⟩ := inv.last_entry e₁ he₀
    rw [hname₀, hidx]
    rfl

/-- `_write_bytes` when the sample overflows the tail chunk's headroom:
the first slice fills the tail to exactly `chunk_size` and the remainder
goes to freshly named chunks. -/
theorem write_bytes_spec_extend_overflow (key : String) (cs : Nat)
    (S₀ : Storage) (shape : List Nat) (p : List Bytes) (IM : List IndexEntry)
    (S : Storage) (ctr : Nat) (cl : List Bytes) (b : Bytes) (e₀ : IndexEntry)
    (tail : Bytes)
    (inv : WInv key cs S₀ shape p IM S ctr cl)
    (hb : b ≠ []) (hcs : 1 ≤ cs) (hIMne : IM ≠ [])
    (he₀ : IM.getLast? = some e₀)
    (htail : cl.getLast? = some tail)
    (hglc : _get_last_chunk key IM S = some (cl.length - 1, tail))
    (hpe : e₀.end_byte = tail.length)
    (hlt : tail.length < cs)
    (hover : cs - tail.length < b.length) :
    ∃ names s e S' ctr' cl',
      _write_bytes b key cs S IM ctr = some ((names, s, e), S', ctr')
      ∧ WInv key cs S₀ shape (p ++ [b]) (IM ++ [⟨names, s, e, shape⟩]) S' ctr' cl' := by
  obtain ⟨L, rfl⟩ := exists_concat_of_getLast? cl tail htail
  set n : Nat := L.length with hn
  set bllc : Nat := cs - tail.length with hbllc
  set filler : Bytes := b.take bllc with hfiller
  set rest : List Bytes := chunkify cs (b.drop bllc) with hrest
  have hcl_len : (L ++ [tail]).length = n + 1 := by simp
  have hctr : ctr = n + 1 := by rw [inv.ctr_eq, hcl_len]
  have hidx : (L ++ [tail]).length - 1 = n := by simp
  have hextT : (decide (IM ≠ []) && decide (tail.length < cs)) = true := by
    simp [hIMne, hlt]
  have hbllc_ne : bllc ≠ 0 := by omega
  have hdropne : b.drop bllc ≠ [] := by
    simp only [Ne, List.drop_eq_nil_iff]
    omega
  have hrestne : rest ≠ [] := fun h => hdropne ((chunkify_nil_iff cs _).mp h)
  have hfiller_len : filler.length = bllc := by
    rw [hfiller, List.length_take]
    omega
  have hchunk1_len : (tail ++ filler).length = cs := by
    rw [List.length_append, hfiller_len]
    omega
  obtain ⟨lp, hlp⟩ : ∃ lp, rest.getLast? = some lp := by
    cases hx : rest.getLast? with
    | none => exact absurd (List.getLast?_eq_none_iff.mp hx) hrestne
    | some t => exact ⟨t, rfl⟩
  set S1 : Storage := storPut S (get_chunk_key key n) (.bytes (tail ++ filler))
    with hS1
  have hstep : writeChunkStep key cs e₀.end_byte
      { extend_last := true, last_chunk_name := n, last_chunk := tail
        chunk_names := [], start_byte := 0, end_byte := 0, storage := S
        ctr := ctr } filler =
      { extend_last := false
        last_chunk_name := n, last_chunk := tail ++ filler
        chunk_names := [n], start_byte := e₀.end_byte
        end_byte := (tail ++ filler).length
        storage := S1
        ctr := ctr } := by
    simp [writeChunkStep, hchunk1_len]
  set st1 : WBState :=
    { extend_last := false
      last_chunk_name := n, last_chunk := tail ++ filler
      chunk_names := [n], start_byte := e₀.end_byte
      end_byte := (tail ++ filler).length
      storage := S1
      ctr := ctr } with hst1
  obtain ⟨fext, fnames, fctr, fstart, fend, -, fstore, fframe⟩ :=
    fold_nonextend key cs e₀.end_byte rest st1 rfl
  set stF : WBState := rest.foldl (writeChunkStep key cs e₀.end_byte) st1 with hstF
  set kr : Nat := rest.length with hkr
  have hkr_pos : 0 < kr := by
    rw [hkr]
    cases hx : rest with
    | nil => exact absurd hx hrestne
    | cons y ys => simp
  have hwb : _write_bytes b key cs S IM ctr =
      some ((stF.chunk_names, stF.start_byte, stF.end_byte), stF.storage, stF.ctr) := by
    simp only [_write_bytes, hglc, hidx, hextT, if_true, generate_chunks,
      if_neg hb, if_neg hbllc_ne]
    rw [if_neg (by simp)]
    rw [he₀]
    simp only [Option.map_some', Option.getD_some, List.foldl_cons, hstep]
  have hnames' : stF.chunk_names = [n] ++ List.range' ctr kr := by
    rw [hstF, fnames]
  have hnames'' : stF.chunk_names = List.range' n (kr + 1) := by
    rw [hnames', List.range'_succ, hctr]
    rfl
  have hstart' : stF.start_byte = e₀.end_byte := by rw [hstF, fstart]
  have hend' : stF.end_byte = lp.length := by rw [hstF]; exact fend lp hlp
  have hctr' : stF.ctr = ctr + kr := by rw [hstF, fctr]
  set M : List Bytes := L ++ [tail ++ filler] with hM
  have hMlen : M.length = ctr := by rw [hM, hctr]; simp
  set cln : List Bytes := M ++ rest with hcln
  have hcln_len : cln.length = ctr + kr := by rw [hcln, List.length_append, hMlen]
  -- index facts
  have hclget : ∀ j, j < n → cln[j]? = (L ++ [tail])[j]? := by
    intro j hj
    rw [hcln, hM, List.append_assoc, List.getElem?_append, if_pos (by omega),
      List.getElem?_append, if_pos hj]
  have hclget_n : cln[n]? = some (tail ++ filler) := by
    rw [hcln, List.getElem?_append, if_pos (by rw [hMlen, hctr]; omega), hM]
    exact List.getElem?_concat_length L _
  have hclget_hi : ∀ i, cln[ctr + i]? = rest[i]? := by
    intro i
    rw [hcln, List.getElem?_append_right (by rw [hMlen]; omega), hMlen]
    congr 1
    omega
  have hclget_n' : (L ++ [tail])[n]? = some tail :=
    List.getElem?_concat_length L _
  -- storage facts
  have hstore_hi : ∀ (i : Nat) (piece : Bytes), rest[i]? = some piece →
      storGet? stF.storage (get_chunk_key key (ctr + i)) = some (.bytes piece) := by
    intro i piece hp'
    exact fstore i piece hp'
  have hframe_keys : ∀ sk, (∀ i, i < kr → sk ≠ get_chunk_key key (ctr + i)) →
      storGet? stF.storage sk = storGet? S1 sk := by
    intro sk hsk
    exact fframe sk hsk
  have hentry : (⟨stF.chunk_names, stF.start_byte, stF.end_byte, shape⟩ : IndexEntry)
      = ⟨List.range' n (kr + 1), e₀.end_byte, lp.length, shape⟩ := by
    rw [hnames'', hstart', hend']
  refine ⟨stF.chunk_names, stF.start_byte, stF.end_byte, stF.storage, stF.ctr,
    cln, hwb, ?_⟩
  rw [hentry, hctr']
  apply winv_snoc
  · exact inv.im_len
  · rw [hcln_len]
  · have h2 : L.flatten ++ tail = p.flatten := by
      have h3 := inv.flatten_eq
      rw [List.flatten_append] at h3
      simpa using h3
    rw [hcln, hM, List.flatten_append, List.flatten_append, hrest,
      chunkify_flatten]
    simp only [List.flatten_cons, List.flatten_nil, List.append_nil,
      List.flatten_append]
    rw [show L.flatten ++ (tail ++ filler) ++ b.drop bllc
        = (L.flatten ++ tail) ++ (filler ++ b.drop bllc) by
      simp [List.append_assoc]]
    rw [h2, hfiller, List.take_append_drop]
  · intro c hc
    rw [hcln] at hc
    rcases List.mem_append.mp hc with hc | hc
    · rw [hM] at hc
      rcases List.mem_append.mp hc with hc | hc
      · exact inv.chunk_pos c (List.mem_append_left _ hc)
      · have hc' : c = tail ++ filler := by simpa using hc
        subst hc'
        rw [hchunk1_len]
        omega
    · exact chunkify_mem_len cs hcs _ c hc
  · intro c hc
    rw [hcln, List.dropLast_append_of_ne_nil _ hrestne] at hc
    rcases List.mem_append.mp hc with hc | hc
    · rw [hM] at hc
      rcases List.mem_append.mp hc with hc | hc
      · exact inv.chunk_full c (by rw [List.dropLast_concat]; exact hc)
      · have hc' : c = tail ++ filler := by simpa using hc
        subst hc'
        exact hchunk1_len
    · exact chunkify_dropLast_full cs hcs _ c hc
  · intro j c hjc
    by_cases hj : j < n
    · rw [hclget j hj] at hjc
      have hkey : ∀ i, i < kr → get_chunk_key key j ≠ get_chunk_key key (ctr + i) := by
        intro i hi
        rw [Ne, get_chunk_key_inj]
        omega
      rw [hframe_keys _ hkey, hS1,
        storGet?_put_other S _ _ _ (by rw [Ne, get_chunk_key_inj]; omega)]
      exact inv.store_chunk j c hjc
    · by_cases hj' : j = n
      · subst hj'
        rw [hclget_n] at hjc
        cases hjc
        have hkey : ∀ i, i < kr → get_chunk_key key n ≠ get_chunk_key key (ctr + i) := by
          intro i hi
          rw [Ne, get_chunk_key_inj]
          omega
        rw [hframe_keys _ hkey, hS1]
        exact storGet?_put_same S _ _
      · have hjge : ctr ≤ j := by omega
        have hj2 : j = ctr + (j - ctr) := by omega
        rw [hj2] at hjc ⊢
        rw [hclget_hi] at hjc
        exact hstore_hi _ c hjc
  · intro k' hk'
    have hkey : ∀ i, i < kr → k' ≠ get_chunk_key key (ctr + i) := fun i _ => hk' _
    rw [hframe_keys k' hkey, hS1, storGet?_put_other S _ _ _ (hk' n)]
    exact inv.frame_other k' hk'
  · intro j hj
    rw [hcln_len] at hj
    have hkey : ∀ i, i < kr → get_chunk_key key j ≠ get_chunk_key key (ctr + i) := by
      intro i hi
      rw [Ne, get_chunk_key_inj]
      omega
    rw [hframe_keys _ hkey, hS1,
      storGet?_put_other S _ _ _ (by rw [Ne, get_chunk_key_inj]; omega)]
    exact inv.frame_hi j (by rw [hcl_len]; omega)
  · intro e he
    obtain ⟨a, k, hk, hak, hname⟩ := inv.entry_names e he
    exact ⟨a, k, hk, by omega, hname⟩
  · exact ⟨n, kr + 1, by omega, by omega, rfl⟩
  · exact inv.entry_shape
  · rfl
  · intro e he m c hm hc
    obtain ⟨a, k, hk, hak, hname⟩ := inv.entry_names e he
    have hmn : m ≤ n := by
      rw [hname, range'_getLast? a k hk] at hm
      cases hm
      rw [hctr] at hak
      omega
    by_cases hmlt : m < n
    · rw [hclget m hmlt] at hc
      exact inv.entry_end e he m c hm hc
    · have hmeq : m = n := by omega
      subst hmeq
      rw [hclget_n] at hc
      cases hc
      have hprev := inv.entry_end e he n tail hm hclget_n'
      rw [List.length_append]
      omega
  · intro m c hm hc
    rw [range'_getLast? n (kr + 1) (by omega)] at hm
    cases hm
    have hidx2 : n + (kr + 1) - 1 = ctr + (kr - 1) := by omega
    rw [hidx2, hclget_hi] at hc
    rw [← List.getLast?_eq_getElem?] at hc
    · rw [hlp] at hc
      cases hc
      exact le_rfl
  · constructor
    · rw [range'_getLast? n (kr + 1) (by omega), hcln_len]
      congr 1
      omega
    · intro c hc
      rw [hcln, List.getLast?_append, hlp] at hc
      simp only [Option.or_some] at hc
      cases hc
      rfl
  · intro t e bt he hbt
    obtain ⟨a, k, hk, hak, hname⟩ := inv.entry_names e (List.getElem?_mem he)
    rw [hctr] at hak
    by_cases hmlt : a + k - 1 < n
    · rw [show readEntryFrom cln e = readEntryFrom (L ++ [tail]) e by
        unfold readEntryFrom
        rw [entryChunks_congr]
        intro j hj
        rw [hname] at hj
        have := mem_range'_bounds hj
        exact hclget j (by omega)]
      exact inv.reads_cl t e bt he hbt
    · have hmeq : a + k - 1 = n := by omega
      rw [readEntryFrom_extend_tail (L ++ [tail]) cln tail filler
        (by intro j hj; exact hclget j (by simpa using hj))
        (by rw [hidx]; exact hclget_n')
        (by rw [hidx]; exact hclget_n)
        e a k hk (by simp; omega) hname (by rw [hidx]; omega)
        (inv.entry_end e (List.getElem?_mem he) n tail
          (by rw [hname, range'_getLast? a k hk, hmeq]) hclget_n')]
      exact inv.reads_cl t e bt he hbt
  · unfold readEntryFrom
    simp only
    have hEC : entryChunks cln (List.range' n (kr + 1)) = (tail ++ filler) :: rest := by
      rw [List.range'_succ]
      simp only [entryChunks, List.map_cons, hclget_n, Option.getD_some]
      congr 1
      rw [show List.range' (n + 1) kr = List.range' M.length rest.length by
        rw [hMlen, hctr, hkr]]
      have := entryChunks_append M rest
      rw [hcln]
      simpa [entryChunks] using this
    rw [hEC]
    have hhead : ((tail ++ filler) :: rest).head? = some (tail ++ filler) := rfl
    have hlast2 : ((tail ++ filler) :: rest).getLast? = some lp := by
      cases hx : rest with
      | nil => exact absurd hx hrestne
      | cons y ys =>
        rw [List.getLast?_cons_cons, ← hx]
        exact hlp
    rw [hpe, join_chunks_eq_flatten_drop _ _ (tail ++ filler) lp hhead hlast2
      (by rw [List.length_append]; omega)]
    rw [List.flatten_cons, hrest, chunkify_flatten, List.append_assoc,
      List.drop_append_of_le_length (by omega), List.drop_length,
      List.nil_append, hfiller, List.take_append_drop]
  · exact inv.boundary
  · intro e₁ he₁
    have he₁' : e₁ = e₀ := by
      rw [he₀] at he₁
      exact Option.some.inj he₁.symm
    subst he₁'
    refine Or.inl ⟨rfl, ?_⟩
    obtain ⟨hname₀, -⟩ := inv.last_entry e₁ he₀
    rw [hname₀, hidx, range'_head? n (kr + 1) (by omega)]

/-- One `_write_sample` body (`_write_bytes`) preserves the loop invariant,
in every case of the tail-chunk state. -/
theorem write_bytes_spec (key : String) (cs : Nat) (S₀ : Storage)
    (shape : List Nat) (p : List Bytes) (IM : List IndexEntry) (S : Storage)
    (ctr : Nat) (cl : List Bytes) (b : Bytes)
    (inv : WInv key cs S₀ shape p IM S ctr cl)
    (hb : b ≠ []) (hcs : 1 ≤ cs) (hp : ∀ x ∈ p, x ≠ []) :
    ∃ names s e S' ctr' cl',
      _write_bytes b key cs S IM ctr = some ((names, s, e), S', ctr')
      ∧ WInv key cs S₀ shape (p ++ [b]) (IM ++ [⟨names, s, e, shape⟩]) S' ctr' cl' := by
  by_cases hIM : IM = []
  · subst hIM
    have hpnil : p = [] := by
      have him := inv.im_len
      simp at him
      exact List.length_eq_zero.mp him.symm
    subst hpnil
    have hclnil : cl = [] :=
      eq_nil_of_flatten_nil_pos cl (by rw [inv.flatten_eq]; rfl)
        (fun c hc => (inv.chunk_pos c hc).1)
    subst hclnil
    exact write_bytes_spec_noextend key cs S₀ shape [] [] S ctr [] b 0 []
      inv hb hcs rfl (by simp) (by intro c hc; simp at hc)
  · obtain ⟨e₀, tail, he₀, htail, hglc, hpe⟩ :=
      glc_of_inv key cs S₀ shape p IM S ctr cl inv hIM hp
    by_cases hlt : tail.length < cs
    · by_cases hfit : b.length ≤ cs - tail.length
      · exact write_bytes_spec_extend_fit key cs S₀ shape p IM S ctr cl b e₀ tail
          inv hb hcs hIM he₀ htail hglc hpe hlt hfit
      · exact write_bytes_spec_extend_overflow key cs S₀ shape p IM S ctr cl b e₀
          tail inv hb hcs hIM he₀ htail hglc hpe hlt (by omega)
    · have htail_mem : tail ∈ cl := by
        obtain ⟨L, rfl⟩ := exists_concat_of_getLast? cl tail htail
        exact List.mem_append_right _ (by simp)
      have hlen_cs : tail.length = cs :=
        le_antisymm (inv.chunk_pos tail htail_mem).2 (by omega)
      have hext : (decide (IM ≠ []) && decide (tail.length < cs)) = false := by
        simp [hlt]
      have hfullcl : ∀ c ∈ cl, c.length = cs := by
        obtain ⟨L, rfl⟩ := exists_concat_of_getLast? cl tail htail
        intro c hc
        rcases List.mem_append.mp hc with hc | hc
        · exact inv.chunk_full c (by rw [List.dropLast_concat]; exact hc)
        · have hc' : c = tail := by simpa using hc
          subst hc'
          exact hlen_cs
      exact write_bytes_spec_noextend key cs S₀ shape p IM S ctr cl b
        (cl.length - 1) tail inv hb hcs hglc hext hfullcl

/-- The sample loop of `write_array` preserves the invariant across a whole
batch. -/
theorem writeSamples_spec (key : String) (cs : Nat) (S₀ : Storage)
    (shape : List Nat) :
    ∀ (rest p : List Bytes) (IM : List IndexEntry) (S : Storage) (ctr : Nat)
      (cl : List Bytes),
    WInv key cs S₀ shape p IM S ctr cl →
    (∀ x ∈ p, x ≠ []) → (∀ x ∈ rest, x ≠ []) → 1 ≤ cs →
    ∃ IM' S' ctr' cl',
      writeSamples key cs shape rest S IM ctr = some (IM', S', ctr')
      ∧ WInv key cs S₀ shape (p ++ rest) IM' S' ctr' cl' := by
  intro rest
  induction rest with
  | nil =>
    intro p IM S ctr cl inv hp _ hcs
    exact ⟨IM, S, ctr, cl, rfl, by simpa using inv⟩
  | cons b rest ih =>
    intro p IM S ctr cl inv hp hrest hcs
    obtain ⟨names, s, e, S', ctr', cl', hwb, inv'⟩ :=
      write_bytes_spec key cs S₀ shape p IM S ctr cl b inv
        (hrest b (List.mem_cons_self b rest)) hcs hp
    have hws : _write_sample shape b key cs S IM ctr
        = some (IM ++ [⟨names, s, e, shape⟩], S', ctr') := by
      simp [_write_sample, hwb]
    have hp' : ∀ x ∈ p ++ [b], x ≠ [] := by
      intro x hx
      rcases List.mem_append.mp hx with hx | hx
      · exact hp x hx
      · have hx' : x = b := by simpa using hx
        subst hx'
        exact hrest x (List.mem_cons_self x rest)
    obtain ⟨IM', S'', ctr'', cl'', hrec, inv''⟩ :=
      ih (p ++ [b]) (IM ++ [⟨names, s, e, shape⟩]) S' ctr' cl' inv' hp'
        (fun x hx => hrest x (List.mem_cons_of_mem _ hx)) hcs
    refine ⟨IM', S'', ctr'', cl'', ?_, ?_⟩
    · simp only [writeSamples, hws]
      exact hrec
    · have hpp : p ++ [b] ++ rest = p ++ b :: rest := by simp
      rwa [hpp] at inv''

/-- Samples of a well-formed batched array are non-empty byte strings. -/
theorem wf_samples_ne (arr : BatchArray) (hwf : arr.WF) :
    ∀ x ∈ arr.samples, x ≠ [] := by
  intro x hx
  obtain ⟨hitem, hdims, hlen⟩ := hwf
  have hprod : 0 < arr.sampleShape.prod := List.prod_pos hdims
  have hx0 := hlen x hx
  intro hcon
  rw [hcon] at hx0
  simp only [List.length_nil] at hx0
  have : 0 < arr.sampleShape.prod * arr.itemsize := Nat.mul_pos hprod hitem
  omega

/-- Master theorem: a successful `write_array` run, characterized by the
loop invariant over the written samples, with meta and index map persisted
on top. -/
theorem write_array_spec (arr : BatchArray) (key : String) (S : Storage)
    (cs : Nat) (hcs : 1 ≤ cs) (hwf : arr.WF)
    (hm : storContains S (get_meta_key key) = false)
    (hi : storContains S (get_index_map_key key) = false) :
    ∃ IM S' ctr cl,
      writeSamples key cs arr.sampleShape arr.samples S [] 0 = some (IM, S', ctr)
      ∧ write_array arr key S cs = .ok
          (storPut (storPut S' (get_meta_key key) (.metaBlob (metaFor arr cs)))
            (get_index_map_key key) (.indexBlob IM))
      ∧ WInv key cs S arr.sampleShape arr.samples IM S' ctr cl := by
  obtain ⟨IM, S', ctr, cl, hws, inv⟩ :=
    writeSamples_spec key cs S arr.sampleShape arr.samples [] [] S 0 []
      (winv_init key cs S arr.sampleShape) (by intro x hx; simp at hx)
      (wf_samples_ne arr hwf) hcs
  refine ⟨IM, S', ctr, cl, hws, ?_, by simpa using inv⟩
  simp only [write_array, hm, hi, Bool.or_self, Bool.false_eq_true, if_false,
    hws, metaFor]

/-- Persisting meta and index map does not disturb chunk keys. -/
theorem storGet?_final_chunk (S' : Storage) (key : String)
    (IM : List IndexEntry) (meta : TensorMeta) (j : Nat) :
    storGet? (storPut (storPut S' (get_meta_key key) (.metaBlob meta))
      (get_index_map_key key) (.indexBlob IM)) (get_chunk_key key j)
    = storGet? S' (get_chunk_key key j) := by
  rw [storGet?_put_other _ _ _ _ (by simp [get_index_map_key, get_chunk_key]),
    storGet?_put_other _ _ _ _ (by simp [get_meta_key, get_chunk_key])]

/-- **C1**: for every well-formed batched numeric array and every
`chunk_size ≥ 1`, `write_array` on a key whose meta and index-map keys are
absent succeeds, and reading the full sample range back returns samples
element-wise equal to the originals with the same per-sample shape. -/
theorem write_read_roundtrip (arr : BatchArray) (key : String) (S : Storage)
    (cs : Nat) (hcs : 1 ≤ cs) (hwf : arr.WF)
    (hm : storContains S (get_meta_key key) = false)
    (hi : storContains S (get_index_map_key key) = false) :
    ∃ S', write_array arr key S cs = .ok S'
      ∧ read_array_single key S' =
          some (arr.samples.map (fun b => (arr.sampleShape, b))) := by
  obtain ⟨IM, S', ctr, cl, hws, hok, inv⟩ :=
    write_array_spec arr key S cs hcs hwf hm hi
  refine ⟨_, hok, ?_⟩
  have hmeta : read_tensor_meta key
      (storPut (storPut S' (get_meta_key key) (.metaBlob (metaFor arr cs)))
        (get_index_map_key key) (.indexBlob IM)) = some (metaFor arr cs) := by
    unfold read_tensor_meta
    rw [storGet?_put_other _ _ _ _ (by simp [get_meta_key, get_index_map_key]),
      storGet?_put_same]
  have hindex : read_index_map key
      (storPut (storPut S' (get_meta_key key) (.metaBlob (metaFor arr cs)))
        (get_index_map_key key) (.indexBlob IM)) = some IM := by
    unfold read_index_map
    rw [storGet?_put_same]
  unfold read_array_single
  rw [hmeta, hindex]
  dsimp only
  have hsamp : ∀ e ∈ IM, _get_sample key
      (storPut (storPut S' (get_meta_key key) (.metaBlob (metaFor arr cs)))
        (get_index_map_key key) (.indexBlob IM)) e
      = some (arr.sampleShape, readEntryFrom cl e) := by
    intro e he
    obtain ⟨a, k, hk, hak, hname⟩ := inv.entry_names e he
    have hfetch : fetchChunks key
        (storPut (storPut S' (get_meta_key key) (.metaBlob (metaFor arr cs)))
          (get_index_map_key key) (.indexBlob IM)) e.chunk_names
        = some (entryChunks cl e.chunk_names) := by
      apply fetchChunks_eq_entryChunks
      intro j hj
      have hjlt : j < cl.length := by
        rw [hname] at hj
        have := mem_range'_bounds hj
        rw [inv.ctr_eq] at hak
        omega
      have hcj : cl[j]? = some (cl.get ⟨j, hjlt⟩) := List.getElem?_eq_getElem hjlt
      refine ⟨cl.get ⟨j, hjlt⟩, hcj, ?_⟩
      rw [storGet?_final_chunk]
      exact inv.store_chunk j _ hcj
    unfold _get_sample
    rw [hfetch]
    rw [inv.entry_shape e he]
    rfl
  rw [mapM_eq_map_of_forall _ (fun e => (arr.sampleShape, readEntryFrom cl e))
    IM hsamp]
  congr 1
  apply List.ext_getElem?
  intro t
  rw [List.getElem?_map, List.getElem?_map]
  by_cases ht : t < IM.length
  · have hts : t < arr.samples.length := by rw [← inv.im_len]; exact ht
    have hte : IM[t]? = some (IM.get ⟨t, ht⟩) := List.getElem?_eq_getElem ht
    have htb : arr.samples[t]? = some (arr.samples.get ⟨t, hts⟩) :=
      List.getElem?_eq_getElem hts
    rw [hte, htb]
    simp only [Option.map_some']
    rw [inv.reads_cl t _ _ hte htb]
  · rw [List.getElem?_eq_none (by omega),
      List.getElem?_eq_none (by rw [← inv.im_len]; omega)]
    rfl

/-- **C2**: after a single successful `write_array` with chunk size `cs` to
a fresh key, every chunk blob stored under the key's chunk namespace has
length at most `cs`, and at most one of those chunks is shorter than `cs`
(the tail). -/
theorem write_chunks_bounded (arr : BatchArray) (key : String) (S : Storage)
    (cs : Nat) (S' : Storage) (hcs : 1 ≤ cs) (hwf : arr.WF)
    (hm : storContains S (get_meta_key key) = false)
    (hi : storContains S (get_index_map_key key) = false)
    (hfresh : ∀ j : Nat, storGet? S (get_chunk_key key j) = none)
    (hok : write_array arr key S cs = .ok S') :
    (∀ (j : Nat) (blob : Blob), storGet? S' (get_chunk_key key j) = some blob →
        ∃ bs, blob = .bytes bs ∧ bs.length ≤ cs)
    ∧ (∀ (j₁ j₂ : Nat) (b₁ b₂ : Bytes),
        storGet? S' (get_chunk_key key j₁) = some (.bytes b₁) →
        storGet? S' (get_chunk_key key j₂) = some (.bytes b₂) →
        b₁.length < cs → b₂.length < cs → j₁ = j₂) := by
  obtain ⟨IM, S'', ctr, cl, hws, hok', inv⟩ :=
    write_array_spec arr key S cs hcs hwf hm hi
  rw [hok] at hok'
  have hS' := Except.ok.inj hok'
  subst hS'
  have hchunk : ∀ j : Nat, storGet?
      (storPut (storPut S'' (get_meta_key key) (.metaBlob (metaFor arr cs)))
        (get_index_map_key key) (.indexBlob IM)) (get_chunk_key key j)
      = if h : j < cl.length then some (.bytes (cl.get ⟨j, h⟩)) else none := by
    intro j
    rw [storGet?_final_chunk]
    by_cases hj : j < cl.length
    · rw [dif_pos hj]
      exact inv.store_chunk j _ (List.getElem?_eq_getElem hj)
    · rw [dif_neg hj]
      rw [inv.frame_hi j (by omega)]
      exact hfresh j
  constructor
  · intro j blob hblob
    rw [hchunk j] at hblob
    by_cases hj : j < cl.length
    · rw [dif_pos hj] at hblob
      cases hblob
      exact ⟨_, rfl, (inv.chunk_pos _ (List.getElem_mem hj)).2⟩
    · rw [dif_neg hj] at hblob
      exact absurd hblob (by simp)
  · intro j₁ j₂ b₁ b₂ h₁ h₂ hlt₁ hlt₂
    have htailidx : ∀ (j : Nat) (b' : Bytes),
        storGet?
          (storPut (storPut S'' (get_meta_key key) (.metaBlob (metaFor arr cs)))
            (get_index_map_key key) (.indexBlob IM)) (get_chunk_key key j)
          = some (.bytes b') →
        b'.length < cs → j = cl.length - 1 := by
      intro j b' hb' hlen
      rw [hchunk j] at hb'
      by_cases hj : j < cl.length
      · rw [dif_pos hj] at hb'
        injection hb' with hb''
        injection hb'' with hb'''
        subst hb'''
        by_contra hcon
        have hjlt : j < cl.length - 1 := by omega
        have hmem : cl.get ⟨j, hj⟩ ∈ cl.dropLast := by
          have hdl : cl.dropLast[j]? = some (cl.get ⟨j, hj⟩) := by
            rw [List.dropLast_eq_take, List.getElem?_take, if_pos hjlt]
            exact List.getElem?_eq_getElem hj
          exact List.getElem?_mem hdl
        have := inv.chunk_full _ hmem
        omega
      · rw [dif_neg hj] at hb'
        exact absurd hb' (by simp)
    rw [htailidx j₁ b₁ h₁ hlt₁, htailidx j₂ b₂ h₂ hlt₂]

/-- **C3**: after a successful `write_array`, the number of bytes each index
entry covers — first listed chunk from `start_byte`, intermediate chunks
whole, `end_byte` into the last, or `end_byte - start_byte` for a single
chunk — equals `prod(shape) * itemsize` for its sample. -/
theorem write_index_coverage (arr : BatchArray) (key : String) (S : Storage)
    (cs : Nat) (S' : Storage) (hcs : 1 ≤ cs) (hwf : arr.WF)
    (hm : storContains S (get_meta_key key) = false)
    (hi : storContains S (get_index_map_key key) = false)
    (hok : write_array arr key S cs = .ok S') :
    ∃ IM, read_index_map key S' = some IM
      ∧ ∀ e ∈ IM, coveredBytes S' key e = e.shape.prod * arr.itemsize := by
  obtain ⟨IM, S'', ctr, cl, hws, hok', inv⟩ :=
    write_array_spec arr key S cs hcs hwf hm hi
  rw [hok] at hok'
  have hS' := Except.ok.inj hok'
  subst hS'
  refine ⟨IM, by unfold read_index_map; rw [storGet?_put_same], ?_⟩
  intro e he
  obtain ⟨t, hte⟩ := List.mem_iff_getElem?.mp he
  have ht : t < IM.length := by
    obtain ⟨h, -⟩ := List.getElem?_eq_some.mp hte
    exact h
  have hts : t < arr.samples.length := by rw [← inv.im_len]; exact ht
  have htb : arr.samples[t]? = some (arr.samples.get ⟨t, hts⟩) :=
    List.getElem?_eq_getElem hts
  obtain ⟨a, k, hk, hak, hname⟩ := inv.entry_names e he
  rw [inv.ctr_eq] at hak
  have hcov := coveredBytes_eq_read_length
    (storPut (storPut S'' (get_meta_key key) (.metaBlob (metaFor arr cs)))
      (get_index_map_key key) (.indexBlob IM)) key cl e a k hk hak hname
    (fun j c hjc => by rw [storGet?_final_chunk]; exact inv.store_chunk j c hjc)
    (inv.entry_end e he)
  rw [hcov, inv.reads_cl t e _ hte htb, hwf.2.2 _ (List.getElem?_mem htb),
    inv.entry_shape e he]

/-- **C4**: after a successful batched `write_array`, every pair of
consecutive index entries either shares a boundary chunk — the second entry
starts at the first entry's `end_byte` inside the first entry's last chunk —
or the second entry starts at offset 0 of a fresh chunk referenced by no
earlier entry. -/
theorem write_boundary_chain (arr : BatchArray) (key : String) (S : Storage)
    (cs : Nat) (S' : Storage) (hcs : 1 ≤ cs) (hwf : arr.WF)
    (hm : storContains S (get_meta_key key) = false)
    (hi : storContains S (get_index_map_key key) = false)
    (hok : write_array arr key S cs = .ok S') :
    ∃ IM, read_index_map key S' = some IM
      ∧ ∀ (t : Nat) (e e' : IndexEntry), IM[t]? = some e → IM[t + 1]? = some e' →
        (e'.start_byte = e.end_byte
            ∧ e'.chunk_names.head? = e.chunk_names.getLast?)
        ∨ (e'.start_byte = 0 ∧ ∀ (u : Nat) (eu : IndexEntry) (n : Nat), u ≤ t →
            IM[u]? = some eu → e'.chunk_names.head? = some n →
            n ∉ eu.chunk_names) := by
  obtain ⟨IM, S'', ctr, cl, hws, hok', inv⟩ :=
    write_array_spec arr key S cs hcs hwf hm hi
  rw [hok] at hok'
  have hS' := Except.ok.inj hok'
  subst hS'
  exact ⟨IM, by unfold read_index_map; rw [storGet?_put_same], inv.boundary⟩

/-- Witness for `write_read_roundtrip` on a concrete 2×3 uint8 batch with
`chunk_size = 4`. -/
theorem write_read_roundtrip_witness :
    (1 ≤ 4)
    ∧ BatchArray.WF ⟨1, [3], [[97,98,99],[100,101,102]]⟩
    ∧ storContains [] (get_meta_key "t") = false
    ∧ storContains [] (get_index_map_key "t") = false
    ∧ (∃ S', write_array ⟨1, [3], [[97,98,99],[100,101,102]]⟩ "t" [] 4 = .ok S'
        ∧ read_array_single "t" S' =
            some (([[97,98,99],[100,101,102]] : List Bytes).map
              (fun b => (([3] : List Nat), b)))) :=
  ⟨by decide, by exact ⟨by decide, by decide, by decide⟩, rfl, rfl,
    write_read_roundtrip ⟨1, [3], [[97,98,99],[100,101,102]]⟩ "t" [] 4
      (by decide) (by exact ⟨by decide, by decide, by decide⟩) rfl rfl⟩

/-- Witness for `write_chunks_bounded` on the same concrete scenario. -/
theorem write_chunks_bounded_witness :
    ((∀ j : Nat, storGet? [] (get_chunk_key "t" j) = none)
      ∧ write_array ⟨1, [3], [[97,98,99],[100,101,102]]⟩ "t" [] 4 = .ok
          [(.chunkOf "t" 0, .bytes [97,98,99,100]),
            (.chunkOf "t" 1, .bytes [101,102]),
            (.metaOf "t", .metaBlob ⟨4, 1, 2, [3], [3]⟩),
            (.indexMapOf "t", .indexBlob [⟨[0], 0, 3, [3]⟩, ⟨[0, 1], 3, 2, [3]⟩])])
    ∧ ((∀ (j : Nat) (blob : Blob),
          storGet? [(.chunkOf "t" 0, .bytes [97,98,99,100]),
            (.chunkOf "t" 1, .bytes [101,102]),
            (.metaOf "t", .metaBlob ⟨4, 1, 2, [3], [3]⟩),
            (.indexMapOf "t", .indexBlob [⟨[0], 0, 3, [3]⟩, ⟨[0, 1], 3, 2, [3]⟩])]
            (get_chunk_key "t" j) = some blob →
          ∃ bs, blob = .bytes bs ∧ bs.length ≤ 4)
      ∧ (∀ (j₁ j₂ : Nat) (b₁ b₂ : Bytes),
          storGet? [(.chunkOf "t" 0, .bytes [97,98,99,100]),
            (.chunkOf "t" 1, .bytes [101,102]),
            (.metaOf "t", .metaBlob ⟨4, 1, 2, [3], [3]⟩),
            (.indexMapOf "t", .indexBlob [⟨[0], 0, 3, [3]⟩, ⟨[0, 1], 3, 2, [3]⟩])]
            (get_chunk_key "t" j₁) = some (.bytes b₁) →
          storGet? [(.chunkOf "t" 0, .bytes [97,98,99,100]),
            (.chunkOf "t" 1, .bytes [101,102]),
            (.metaOf "t", .metaBlob ⟨4, 1, 2, [3], [3]⟩),
            (.indexMapOf "t", .indexBlob [⟨[0], 0, 3, [3]⟩, ⟨[0, 1], 3, 2, [3]⟩])]
            (get_chunk_key "t" j₂) = some (.bytes b₂) →
          b₁.length < 4 → b₂.length < 4 → j₁ = j₂)) :=
  ⟨⟨fun _ => rfl, rfl⟩,
    write_chunks_bounded ⟨1, [3], [[97,98,99],[100,101,102]]⟩ "t" [] 4 _
      (by decide) (by exact ⟨by decide, by decide, by decide⟩) rfl rfl
      (fun _ => rfl) rfl⟩

/-- Witness for `write_index_coverage` on the same concrete scenario. -/
theorem write_index_coverage_witness :
    (write_array ⟨1, [3], [[97,98,99],[100,101,102]]⟩ "t" [] 4 = .ok
        [(.chunkOf "t" 0, .bytes [97,98,99,100]),
          (.chunkOf "t" 1, .bytes [101,102]),
          (.metaOf "t", .metaBlob ⟨4, 1, 2, [3], [3]⟩),
          (.indexMapOf "t", .indexBlob [⟨[0], 0, 3, [3]⟩, ⟨[0, 1], 3, 2, [3]⟩])])
    ∧ (∃ IM, read_index_map "t"
          [(.chunkOf "t" 0, .bytes [97,98,99,100]),
            (.chunkOf "t" 1, .bytes [101,102]),
            (.metaOf "t", .metaBlob ⟨4, 1, 2, [3], [3]⟩),
            (.indexMapOf "t", .indexBlob [⟨[0], 0, 3, [3]⟩, ⟨[0, 1], 3, 2, [3]⟩])]
          = some IM
        ∧ ∀ e ∈ IM, coveredBytes
            [(.chunkOf "t" 0, .bytes [97,98,99,100]),
              (.chunkOf "t" 1, .bytes [101,102]),
              (.metaOf "t", .metaBlob ⟨4, 1, 2, [3], [3]⟩),
              (.indexMapOf "t", .indexBlob [⟨[0], 0, 3, [3]⟩, ⟨[0, 1], 3, 2, [3]⟩])]
            "t" e = e.shape.prod * 1) :=
  ⟨rfl, write_index_coverage ⟨1, [3], [[97,98,99],[100,101,102]]⟩ "t" [] 4 _
    (by decide) (by exact ⟨by decide, by decide, by decide⟩) rfl rfl rfl⟩

/-- Witness for `write_boundary_chain` on the same concrete scenario. -/
theorem write_boundary_chain_witness :
    (write_array ⟨1, [3], [[97,98,99],[100,101,102]]⟩ "t" [] 4 = .ok
        [(.chunkOf "t" 0, .bytes [97,98,99,100]),
          (.chunkOf "t" 1, .bytes [101,102]),
          (.metaOf "t", .metaBlob ⟨4, 1, 2, [3], [3]⟩),
          (.indexMapOf "t", .indexBlob [⟨[0], 0, 3, [3]⟩, ⟨[0, 1], 3, 2, [3]⟩])])
    ∧ (∃ IM, read_index_map "t"
          [(.chunkOf "t" 0, .bytes [97,98,99,100]),
            (.chunkOf "t" 1, .bytes [101,102]),
            (.metaOf "t", .metaBlob ⟨4, 1, 2, [3], [3]⟩),
            (.indexMapOf "t", .indexBlob [⟨[0], 0, 3, [3]⟩, ⟨[0, 1], 3, 2, [3]⟩])]
          = some IM
        ∧ ∀ (t : Nat) (e e' : IndexEntry), IM[t]? = some e → IM[t + 1]? = some e' →
          (e'.start_byte = e.end_byte
              ∧ e'.chunk_names.head? = e.chunk_names.getLast?)
          ∨ (e'.start_byte = 0 ∧ ∀ (u : Nat) (eu : IndexEntry) (n : Nat), u ≤ t →
              IM[u]? = some eu → e'.chunk_names.head? = some n →
              n ∉ eu.chunk_names)) :=
  ⟨rfl, write_boundary_chain ⟨1, [3], [[97,98,99],[100,101,102]]⟩ "t" [] 4 _
    (by decide) (by exact ⟨by decide, by decide, by decide⟩) rfl rfl rfl⟩

end Hub

